import Mathlib

/-!
Verification of the gallery reconciler `scripts/update_gallery.py`.

The script is embedded shallowly:

* File names (entries of the `images/` directory) are `String`s.
* Paths are strings relative to the repository root (`BASE_DIR` in the
  script), e.g. `"images/photo.jpg"`; the script is assumed to run with the
  repository root as working directory, so the relative-path existence check
  for a user-customized thumbnail and the absolute-path checks against
  `IMAGES_DIR` agree on these strings.
* The filesystem is abstracted by a record `FS`: the (sorted) list of names
  of regular files directly inside `images/`, an existence predicate on
  paths, and a decodability predicate standing for `PIL.Image.open` +
  conversion + save succeeding for a source file.
* JSON catalog entries are the record `Entry`; a missing or `null` string
  field of the JSON object is modelled by `""` (both are falsy in Python,
  and the script only tests them for truthiness), a missing `id` by the
  `0` default used in `e.get("id", 0)`.
* The body of `main`'s loop becomes a fold of a step function over the file
  list; the mutable `gallery`, `max_id`, `changed`, `new_entries` locals and
  the set of thumbnail files written so far form the fold state `RunState`.
  Logging is not modelled.
-/

namespace Gallery

/-- Python `str.lower()` on a string (per-character lowering). -/
def lowerStr (s : String) : String := ⟨s.data.map Char.toLower⟩

/-- Python `str.endswith(suf)`. -/
def strEndsWith (s suf : String) : Bool :=
  s.data.reverse.take suf.data.length == suf.data.reverse

/-- Python `str.startswith(pre)`. -/
def strStartsWith (s pre : String) : Bool :=
  s.data.take pre.data.length == pre.data

/-- Index of the last occurrence of `c` in `s` (Python `str.rfind`). -/
def rfind (s : List Char) (c : Char) : Option Nat :=
  match s with
  | [] => none
  | a :: rest =>
    match rfind rest c with
    | some i => some (i + 1)
    | none => if a == c then some 0 else none

/-- `pathlib.PurePath.stem` and `.suffix` for a file name: split at the last
dot, provided it is neither the leading character nor the trailing one. -/
def stemSuffix (name : String) : String × String :=
  let cs := name.data
  match rfind cs '.' with
  | some i => if 0 < i ∧ i < cs.length - 1 then (⟨cs.take i⟩, ⟨cs.drop i⟩) else (name, "")
  | none => (name, "")

/-- `Path(name).stem`. -/
def stem (name : String) : String := (stemSuffix name).1

/-- `Path(name).suffix`. -/
def fileExt (name : String) : String := (stemSuffix name).2

/-- `is_image_file` from the script: `p.suffix.lower() in [".jpg", ".jpeg"]`. -/
def is_image_file (name : String) : Bool :=
  lowerStr (fileExt name) == ".jpg" || lowerStr (fileExt name) == ".jpeg"

/-- `make_center_square`, reduced to the crop geometry.  `none` models the
`w == h` branch that returns the image object unchanged; `some (left, top,
right, bottom)` models the box handed to `im.crop`. -/
def make_center_square (w h : Nat) : Option (Nat × Nat × Nat × Nat) :=
  if w == h then none
  else
    let min_side := min w h
    let left := (w - min_side) / 2
    let top := (h - min_side) / 2
    some (left, top, left + min_side, top + min_side)

/-- One record of `gallery.json`. -/
structure Entry where
  id : Int
  title : String
  description : String
  category : String
  thumbnail : String
  image : String
  location : String
  date : String
  camera : String
  tags : List String
deriving DecidableEq, Inhabited

/-- Abstraction of the filesystem seen by one run: the names of the regular
files directly inside `images/` (in the sorted order `main` enumerates
them), existence of a path on disk before the run, and whether decoding and
re-encoding a given source file succeeds. -/
structure FS where
  files : List String
  pathExists : String → Bool
  decodable : String → Bool

/-- The mutable state of `main`'s loop: the catalog list (entries mutated in
place), `max_id`, `changed`, `new_entries`, and the list of thumbnail paths
written so far during this run. -/
structure RunState where
  gallery : List Entry
  maxId : Int
  changed : Bool
  newEntries : List Entry
  created : List String
deriving DecidableEq, Inhabited

/-- `normalize_key`: remove a leading `"./"`. -/
def normalize_key (p : String) : String :=
  if strStartsWith p "./" then ⟨p.data.drop 2⟩ else p

/-- The lookup key of an entry, `normalize_key(e.get("image", ""))`. -/
def keyOf (e : Entry) : String := normalize_key e.image

/-- `default_entry` from the script. -/
def default_entry (img_name : String) (next_id : Int) : Entry :=
  { id := next_id,
    title := stem img_name,
    description := "NaN",
    category := "None",
    thumbnail := "./images/" ++ stem img_name ++ "-thumb.jpg",
    image := "./images/" ++ stem img_name ++ ".jpg",
    location := "None",
    date := "2000-01-01",
    camera := "None",
    tags := ["None"] }

/-- Name of the derived thumbnail file of a source image,
`f"{img.stem}{THUMB_SUFFIX}.jpg"`. -/
def thumbName (n : String) : String := stem n ++ "-thumb.jpg"

/-- Path of the derived thumbnail relative to the repository root. -/
def thumbPath (n : String) : String := "images/" ++ thumbName n

/-- `rel_thumb_to_store`, the canonical stored thumbnail path. -/
def relThumb (n : String) : String := "./images/" ++ thumbName n

/-- `normalized`, the lookup key of a source file name. -/
def imgKey (n : String) : String := "images/" ++ n

/-- `rel_image_to_store`, the canonical stored image path. -/
def relImage (n : String) : String := "./images/" ++ n

/-- Existence of a path at some moment during a run: it was on disk before
the run or this run already wrote it as a thumbnail. -/
def existsNow (fs : FS) (created : List String) (p : String) : Bool :=
  fs.pathExists p || created.contains p

/-- `create_thumbnail src dst`: returns the `True`/`False` result together
with the updated list of thumbnails written.  If `dst` already exists it
reports success without touching the source; otherwise it decodes, crops,
resizes and saves, which succeeds iff the source is decodable. -/
def create_thumbnail (fs : FS) (created : List String) (src dst : String) :
    Bool × List String :=
  if existsNow fs created dst then (true, created)
  else if fs.decodable src then (true, created ++ [dst])
  else (false, created)

/-- Index of the last entry of `g` whose key is `k` — the entry the dict
`existing` (built with `existing[key] = e` in list order, later entries
overwriting earlier ones) associates to `k`. -/
def lastIdx (g : List Entry) (k : String) : Option Nat :=
  match g with
  | [] => none
  | e :: rest =>
    match lastIdx rest k with
    | some i => some (i + 1)
    | none => if keyOf e == k then some 0 else none

/-- In-place update `ent["thumbnail"] = rel_thumb_to_store; changed = True`
of the entry at index `i`. -/
def setThumb (st : RunState) (i : Nat) (ent : Entry) (n : String) : RunState :=
  { st with gallery := st.gallery.set i { ent with thumbnail := relThumb n },
            changed := true }

/-- The `else` branch of the lookup: `max_id += 1`, build `default_entry`,
force the canonical `thumbnail`/`image` paths, append to `new_entries`. -/
def addNew (st : RunState) (n : String) : RunState :=
  { st with maxId := st.maxId + 1,
            newEntries := st.newEntries ++
              [{ default_entry n (st.maxId + 1) with
                   thumbnail := relThumb n, image := relImage n }],
            changed := true }

/-- The `if normalized in existing` branch: preserve the entry (the Python
local `ent`, here written out as `st.gallery.getD i default`), only
reconcile its `thumbnail` field. -/
def processFound (fs : FS) (st : RunState) (n : String) (i : Nat) : RunState :=
  if (st.gallery.getD i default).thumbnail == "" then
    setThumb st i (st.gallery.getD i default) n
  else if (st.gallery.getD i default).thumbnail != relThumb n then
    if existsNow fs st.created (normalize_key (st.gallery.getD i default).thumbnail) then
      st
    else setThumb st i (st.gallery.getD i default) n
  else st

/-- Dispatch on the dict lookup of the normalized key. -/
def processEntry (fs : FS) (st : RunState) (n : String) : RunState :=
  match lastIdx st.gallery (imgKey n) with
  | some i => processFound fs st n i
  | none => addNew st n

/-- Body of `main`'s loop after the thumb-name skip: create the thumbnail
(the Python local `ok` is the first component, the updated write-set the
second); on failure skip the JSON update, otherwise merge into the catalog. -/
def processSource (fs : FS) (st : RunState) (n : String) : RunState :=
  if (create_thumbnail fs st.created n (thumbPath n)).1 then
    processEntry fs
      { st with created := (create_thumbnail fs st.created n (thumbPath n)).2 } n
  else { st with created := (create_thumbnail fs st.created n (thumbPath n)).2 }

/-- Full body of `main`'s loop: skip files whose stem (lowered) ends with
`THUMB_SUFFIX.lstrip("-") = "thumb"`. -/
def processImage (fs : FS) (st : RunState) (n : String) : RunState :=
  if strEndsWith (lowerStr (stem n)) "thumb" then st
  else processSource fs st n

/-- `max((e.get("id", 0) for e in gallery), default=0)`. -/
def initMaxId (g : List Entry) : Int :=
  match g with
  | [] => 0
  | e :: rest => rest.foldl (fun m x => max m x.id) e.id

/-- State at the top of the loop. -/
def initState (g : List Entry) : RunState :=
  { gallery := g, maxId := initMaxId g, changed := false,
    newEntries := [], created := [] }

/-- The `files` list of `main`: directory entries that are image files. -/
def imageFiles (files : List String) : List String := files.filter is_image_file

/-- The files actually treated as source images: image files whose lowered
stem does not end with `"thumb"`. -/
def sourceImages (files : List String) : List String :=
  (imageFiles files).filter (fun n => !strEndsWith (lowerStr (stem n)) "thumb")

/-- The loop of `main` over a file list. -/
def runFiles (fs : FS) (st : RunState) (files : List String) : RunState :=
  files.foldl (processImage fs) st

/-- The same loop restricted to source images (no skip test). -/
def runSources (fs : FS) (st : RunState) (files : List String) : RunState :=
  files.foldl (processSource fs) st

/-- One run of `main` on catalog `g`: loop over the image files, then
`gallery.extend(new_entries)`.  The resulting `.changed` tells whether
`gallery.json` is rewritten, `.created` which thumbnail files were written. -/
def run (fs : FS) (g : List Entry) : RunState :=
  { runFiles fs (initState g) (imageFiles fs.files) with
    gallery := (runFiles fs (initState g) (imageFiles fs.files)).gallery ++
               (runFiles fs (initState g) (imageFiles fs.files)).newEntries }

/-- Whether some entry of `g` has key `k`. -/
def containsKey (g : List Entry) (k : String) : Bool :=
  g.any (fun e => keyOf e == k)

/-- Two entries agreeing on every field except possibly `thumbnail`. -/
def agreeExceptThumb (a b : Entry) : Prop :=
  a.id = b.id ∧ a.title = b.title ∧ a.description = b.description ∧
  a.category = b.category ∧ a.image = b.image ∧ a.location = b.location ∧
  a.date = b.date ∧ a.camera = b.camera ∧ a.tags = b.tags

/-- The filesystem a second run sees after a first run that wrote the
thumbnails `created`: the same decodability, and a path exists if it existed
before or was written by the first run. -/
def secondFS (fs : FS) (files2 : List String) (created : List String) : FS :=
  { files := files2,
    pathExists := fun p => fs.pathExists p || created.contains p,
    decodable := fs.decodable }

/-- Filesystem actions performed by `atomic_write`. -/
inductive FsAction where
  | writeFile (path : String) (data : String)
  | replace (src dst : String)
deriving DecidableEq

/-- `Path(p).parent` as a string (everything before the last slash). -/
def dirOf (p : String) : String :=
  match rfind p.data '/' with
  | some i => ⟨p.data.take i⟩
  | none => "."

/-- The path `tempfile.mkstemp(prefix="gallery-", dir=dir)` creates, with
`salt` standing for the random part of the name. -/
def mkstempPath (dir salt : String) : String := dir ++ "/gallery-" ++ salt

/-- `atomic_write path data` as its trace of filesystem actions: write the
full data to a fresh temp file in `path`'s own directory, then
`os.replace` it over `path`. -/
def atomic_write (path data salt : String) : List FsAction :=
  let tmp := mkstempPath (dirOf path) salt
  [FsAction.writeFile tmp data, FsAction.replace tmp path]

/-- Effect of one action on an abstract disk (`none` = file absent). -/
def applyAction (d : String → Option String) : FsAction → String → Option String
  | FsAction.writeFile p s => fun q => if q == p then some s else d q
  | FsAction.replace src dst =>
      fun q => if q == dst then d src else if q == src then none else d q

/-- Effect of a sequence of actions on an abstract disk. -/
def runActions (d : String → Option String) (l : List FsAction) :
    String → Option String :=
  l.foldl applyAction d

/-- `GALLERY_PATH` relative to the repository root. -/
def GALLERY_PATH : String := "images/gallery.json"

/-- The catalog-persisting actions of one run of `main`: an atomic write
when `changed`, nothing otherwise.  `pretty` is the serialized JSON text. -/
def persistTrace (fs : FS) (g : List Entry) (pretty salt : String) : List FsAction :=
  if (run fs g).changed then atomic_write GALLERY_PATH pretty salt else []

/-- Pointwise agreement (up to `thumbnail`) of two entry lists. -/
def AgreeAll (g G : List Entry) : Prop :=
  g.length = G.length ∧ ∀ i, agreeExceptThumb (g.getD i default) (G.getD i default)

/-- A source image whose catalog state is stable: its key resolves to an
entry whose `thumbnail` is either the derived path or a non-empty path that
exists, so a later run leaves the entry alone. -/
def Settled (fs : FS) (created : List String) (G : List Entry) (n : String) : Prop :=
  ∃ i, lastIdx G (imgKey n) = some i ∧
    ((G.getD i default).thumbnail = relThumb n ∨
     ((G.getD i default).thumbnail ≠ "" ∧
      existsNow fs created (normalize_key (G.getD i default).thumbnail) = true))

/-- A source image for which `create_thumbnail` succeeds regardless of what
the run wrote before reaching it: the thumbnail pre-exists or the source
decodes. -/
def okSrc (fs : FS) (n : String) : Bool :=
  fs.pathExists (thumbPath n) || fs.decodable n

/-- Loop invariant, part 1 (no hypotheses needed): the original entries are
preserved up to `thumbnail`, and the new entries carry consecutive ids
`initMaxId g + 1, …` with default metadata and canonical paths. -/
def Inv1 (g : List Entry) (done : List String) (st : RunState) : Prop :=
  AgreeAll g st.gallery ∧
  st.maxId = initMaxId g + st.newEntries.length ∧
  (∀ j, j < st.newEntries.length → ∃ n, n ∈ done ∧ lastIdx g (imgKey n) = none ∧
      st.newEntries.getD j default =
        { default_entry n (initMaxId g + (j : Int) + 1) with
            thumbnail := relThumb n, image := relImage n })

/-- Loop invariant, full version (requires the processed names to be
pairwise distinct): additionally, every processed source with `okSrc` has
its thumbnail on disk and a settled catalog entry; untouched entries are
unchanged; and `changed` tracks exactly whether the catalog differs from
the loaded one. -/
def InvFull (fs : FS) (g : List Entry) (done : List String) (st : RunState) : Prop :=
  Inv1 g done st ∧
  (∀ n ∈ done, okSrc fs n = true → existsNow fs st.created (thumbPath n) = true) ∧
  (∀ n ∈ done, okSrc fs n = true →
      Settled fs st.created (st.gallery ++ st.newEntries) n) ∧
  (∀ i, (∀ n ∈ done, imgKey n ≠ keyOf (g.getD i default)) →
      st.gallery.getD i default = g.getD i default) ∧
  (st.changed = false → st.gallery = g ∧ st.newEntries = []) ∧
  (st.changed = true → ¬(st.gallery = g ∧ st.newEntries = []))

/-- Hypothesis-free loop invariant tying the `changed` flag to a real
difference of the in-memory catalog from the loaded one: every entry is
still the loaded one or carries the derived thumbnail of its own key, and
`changed` is set exactly when the catalog state differs from the loaded
catalog. -/
def InvPersist (g : List Entry) (st : RunState) : Prop :=
  (∀ i, st.gallery.getD i default = g.getD i default ∨
     ∀ n, keyOf (st.gallery.getD i default) = imgKey n →
       (st.gallery.getD i default).thumbnail = relThumb n) ∧
  (st.changed = false → st.gallery = g ∧ st.newEntries = []) ∧
  (st.changed = true → ¬(st.gallery = g ∧ st.newEntries = []))

/-! ### Generic list lemmas -/

theorem getD_append {α : Type} (l₁ l₂ : List α) (j : Nat) (d : α) :
    (l₁ ++ l₂).getD j d =
      if j < l₁.length then l₁.getD j d else l₂.getD (j - l₁.length) d := by
  induction l₁ generalizing j with
  | nil => simp
  | cons a l ih =>
    cases j with
    | zero => simp
    | succ j =>
      simp only [List.cons_append, List.getD_cons_succ, ih j, List.length_cons,
        Nat.succ_lt_succ_iff, Nat.succ_sub_succ]

theorem getD_set {α : Type} (l : List α) (i j : Nat) (a d : α) :
    (l.set i a).getD j d = if i = j ∧ i < l.length then a else l.getD j d := by
  induction l generalizing i j with
  | nil => simp
  | cons b l ih =>
    cases i with
    | zero =>
      cases j with
      | zero => simp
      | succ j => simp
    | succ i =>
      cases j with
      | zero => simp
      | succ j =>
        simp only [List.set_cons_succ, List.getD_cons_succ, ih i j,
          List.length_cons, Nat.succ_lt_succ_iff, Nat.succ.injEq]

theorem getD_mem {α : Type} (l : List α) (j : Nat) (d : α) (h : j < l.length) :
    l.getD j d ∈ l := by
  induction l generalizing j with
  | nil => simp at h
  | cons a l ih =>
    cases j with
    | zero => simp
    | succ j =>
      simp only [List.getD_cons_succ, List.mem_cons]
      exact Or.inr (ih j (by simpa using h))

/-! ### Lemmas about `lastIdx` -/

theorem lastIdx_lt : ∀ (g : List Entry) (k : String) (i : Nat),
    lastIdx g k = some i → i < g.length := by
  intro g k
  induction g with
  | nil => intro i h; simp [lastIdx] at h
  | cons e g ih =>
    intro i h
    rw [lastIdx] at h
    cases hg : lastIdx g k with
    | some j =>
      rw [hg] at h
      simp only [Option.some.injEq] at h
      have := ih j hg
      simp only [List.length_cons]
      omega
    | none =>
      rw [hg] at h
      by_cases hk : keyOf e = k
      · rw [if_pos (beq_iff_eq.mpr hk)] at h
        simp only [Option.some.injEq] at h
        simp only [List.length_cons]
        omega
      · rw [if_neg (by simp [hk])] at h
        exact absurd h (by simp)

theorem lastIdx_keyOf : ∀ (g : List Entry) (k : String) (i : Nat),
    lastIdx g k = some i → keyOf (g.getD i default) = k := by
  intro g k
  induction g with
  | nil => intro i h; simp [lastIdx] at h
  | cons e g ih =>
    intro i h
    rw [lastIdx] at h
    cases hg : lastIdx g k with
    | some j =>
      rw [hg] at h
      simp only [Option.some.injEq] at h
      subst h
      simp only [List.getD_cons_succ]
      exact ih j hg
    | none =>
      rw [hg] at h
      by_cases hk : keyOf e = k
      · rw [if_pos (beq_iff_eq.mpr hk)] at h
        simp only [Option.some.injEq] at h
        subst h
        simpa using hk
      · rw [if_neg (by simp [hk])] at h
        exact absurd h (by simp)

theorem lastIdx_none_iff : ∀ (g : List Entry) (k : String),
    lastIdx g k = none ↔ ∀ e ∈ g, keyOf e ≠ k := by
  intro g k
  induction g with
  | nil => simp [lastIdx]
  | cons e g ih =>
    rw [lastIdx]
    cases hg : lastIdx g k with
    | some j =>
      simp only [List.mem_cons]
      constructor
      · intro h; exact absurd h (by simp)
      · intro h
        have hmem : g.getD j default ∈ g := getD_mem g j default (lastIdx_lt g k j hg)
        exact absurd (lastIdx_keyOf g k j hg) (h _ (Or.inr hmem))
    | none =>
      have hg' := ih.mp hg
      constructor
      · intro h e' he'
        rcases List.mem_cons.mp he' with rfl | hmem
        · intro hk
          rw [if_pos (beq_iff_eq.mpr hk)] at h
          exact absurd h (by simp)
        · exact hg' e' hmem
      · intro h
        rw [if_neg]
        simp only [bne_iff_ne, ne_eq, beq_iff_eq]
        exact h e (List.mem_cons_self e g)

theorem lastIdx_last : ∀ (g : List Entry) (k : String) (i : Nat),
    lastIdx g k = some i →
    ∀ j, i < j → j < g.length → keyOf (g.getD j default) ≠ k := by
  intro g k
  induction g with
  | nil => intro i h; simp [lastIdx] at h
  | cons e g ih =>
    intro i h j hij hjl
    rw [lastIdx] at h
    cases hg : lastIdx g k with
    | some m =>
      rw [hg] at h
      simp only [Option.some.injEq] at h
      cases j with
      | zero => omega
      | succ j' =>
        simp only [List.getD_cons_succ]
        exact ih m hg j' (by omega) (by simpa using hjl)
    | none =>
      cases j with
      | zero => omega
      | succ j' =>
        simp only [List.getD_cons_succ]
        have hmem : g.getD j' default ∈ g := getD_mem g j' default (by simpa using hjl)
        exact (lastIdx_none_iff g k).mp hg _ hmem

theorem lastIdx_append (a b : List Entry) (k : String) :
    lastIdx (a ++ b) k =
      match lastIdx b k with
      | some j => some (a.length + j)
      | none => lastIdx a k := by
  induction a with
  | nil =>
    cases hb : lastIdx b k <;> simp [hb, lastIdx]
  | cons e a ih =>
    rw [List.cons_append, lastIdx, ih]
    cases hb : lastIdx b k with
    | some j =>
      simp only [Option.some.injEq, List.length_cons]
      omega
    | none =>
      rw [lastIdx]

theorem lastIdx_set (g : List Entry) (i : Nat) (e' : Entry) (k : String)
    (hk : keyOf e' = keyOf (g.getD i default)) :
    lastIdx (g.set i e') k = lastIdx g k := by
  induction g generalizing i with
  | nil => simp
  | cons e g ih =>
    cases i with
    | zero =>
      simp only [List.getD_cons_zero] at hk
      simp only [List.set_cons_zero]
      rw [lastIdx, lastIdx, hk]
    | succ i =>
      simp only [List.getD_cons_succ] at hk
      simp only [List.set_cons_succ]
      rw [lastIdx, lastIdx, ih i hk]

/-! ### Lemmas about entry agreement -/

theorem agree_refl (a : Entry) : agreeExceptThumb a a := by
  exact ⟨rfl, rfl, rfl, rfl, rfl, rfl, rfl, rfl, rfl⟩

theorem agree_keyOf {a b : Entry} (h : agreeExceptThumb a b) : keyOf a = keyOf b := by
  obtain ⟨-, -, -, -, him, -, -, -, -⟩ := h
  simp [keyOf, him]

theorem agree_setThumb {a b : Entry} (h : agreeExceptThumb a b) (t : String) :
    agreeExceptThumb a { b with thumbnail := t } := by
  obtain ⟨h1, h2, h3, h4, h5, h6, h7, h8, h9⟩ := h
  exact ⟨h1, h2, h3, h4, h5, h6, h7, h8, h9⟩

theorem agree_eq_setThumb {a b : Entry} (h : agreeExceptThumb a b) :
    b = { a with thumbnail := b.thumbnail } := by
  obtain ⟨h1, h2, h3, h4, h5, h6, h7, h8, h9⟩ := h
  cases a; cases b
  simp_all

theorem agreeAll_refl (g : List Entry) : AgreeAll g g :=
  ⟨rfl, fun _ => agree_refl _⟩

theorem agreeAll_lastIdx : ∀ (g G : List Entry), AgreeAll g G →
    ∀ k, lastIdx G k = lastIdx g k
  | [], [], _, _ => rfl
  | [], _ :: _, h, _ => by simp [AgreeAll] at h
  | _ :: _, [], h, _ => by simp [AgreeAll] at h
  | e :: g, E :: G, h, k => by
      obtain ⟨hlen, hag⟩ := h
      have h0 := agree_keyOf (hag 0)
      simp only [List.getD_cons_zero] at h0
      have ih := agreeAll_lastIdx g G
        ⟨by simpa using hlen, fun i => by simpa using hag (i + 1)⟩ k
      rw [lastIdx, lastIdx, ih, h0]

/-! ### Path lemmas -/

theorem data_mk (l : List Char) : (⟨l⟩ : String).data = l := rfl

theorem normalize_key_dotslash (t : String) : normalize_key ("./" ++ t) = t := by
  have hd : ("./" ++ t).data = '.' :: '/' :: t.data := by
    rw [String.data_append]
    rfl
  unfold normalize_key strStartsWith
  rw [if_pos]
  · rw [hd]
    rfl
  · rw [hd]
    rfl

theorem relImage_eq (n : String) : relImage n = "./" ++ imgKey n := by
  unfold relImage imgKey
  apply String.ext
  rw [String.data_append, String.data_append, String.data_append]
  rfl

theorem relThumb_eq (n : String) : relThumb n = "./" ++ thumbPath n := by
  unfold relThumb thumbPath
  apply String.ext
  rw [String.data_append, String.data_append, String.data_append]
  rfl

theorem normalize_key_relImage (n : String) : normalize_key (relImage n) = imgKey n := by
  rw [relImage_eq, normalize_key_dotslash]

theorem normalize_key_relThumb (n : String) : normalize_key (relThumb n) = thumbPath n := by
  rw [relThumb_eq, normalize_key_dotslash]

theorem dotslash_ne_empty (t : String) : "./" ++ t ≠ "" := by
  intro h
  have hd := congrArg String.data h
  rw [String.data_append, show ("./" : String).data = ['.', '/'] from rfl,
    show ("" : String).data = [] from rfl] at hd
  simp at hd

theorem relThumb_ne_empty (n : String) : relThumb n ≠ "" := by
  rw [relThumb_eq]
  exact dotslash_ne_empty _

theorem imgKey_inj {a b : String} (h : imgKey a = imgKey b) : a = b := by
  unfold imgKey at h
  have hd := congrArg String.data h
  rw [String.data_append, String.data_append] at hd
  exact String.ext (List.append_cancel_left hd)

/-! ### Shape of one loop step -/

theorem processFound_of_empty (fs : FS) (st : RunState) (n : String) (i : Nat)
    (he : (st.gallery.getD i default).thumbnail = "") :
    processFound fs st n i = setThumb st i (st.gallery.getD i default) n := by
  unfold processFound
  rw [if_pos (beq_iff_eq.mpr he)]

theorem processFound_of_canonical (fs : FS) (st : RunState) (n : String) (i : Nat)
    (he : (st.gallery.getD i default).thumbnail = relThumb n) :
    processFound fs st n i = st := by
  unfold processFound
  rw [if_neg (by rw [beq_iff_eq, he]; exact relThumb_ne_empty n),
    if_neg (by rw [bne_iff_ne, he]; exact fun h => h rfl)]

theorem processFound_of_kept (fs : FS) (st : RunState) (n : String) (i : Nat)
    (he : (st.gallery.getD i default).thumbnail ≠ "")
    (hne : (st.gallery.getD i default).thumbnail ≠ relThumb n)
    (hex : existsNow fs st.created
      (normalize_key (st.gallery.getD i default).thumbnail) = true) :
    processFound fs st n i = st := by
  unfold processFound
  rw [if_neg (by rw [beq_iff_eq]; exact he), if_pos (bne_iff_ne.mpr hne), if_pos hex]

theorem processFound_of_stale (fs : FS) (st : RunState) (n : String) (i : Nat)
    (he : (st.gallery.getD i default).thumbnail ≠ "")
    (hne : (st.gallery.getD i default).thumbnail ≠ relThumb n)
    (hex : existsNow fs st.created
      (normalize_key (st.gallery.getD i default).thumbnail) = false) :
    processFound fs st n i = setThumb st i (st.gallery.getD i default) n := by
  unfold processFound
  rw [if_neg (by rw [beq_iff_eq]; exact he), if_pos (bne_iff_ne.mpr hne),
    if_neg (by rw [hex]; exact Bool.false_ne_true)]

theorem processEntry_of_some (fs : FS) (st : RunState) (n : String) (i : Nat)
    (hL : lastIdx st.gallery (imgKey n) = some i) :
    processEntry fs st n = processFound fs st n i := by
  unfold processEntry
  rw [hL]

theorem processEntry_of_none (fs : FS) (st : RunState) (n : String)
    (hL : lastIdx st.gallery (imgKey n) = none) :
    processEntry fs st n = addNew st n := by
  unfold processEntry
  rw [hL]

theorem create_thumbnail_of_exists (fs : FS) (st : RunState) (n : String)
    (h1 : existsNow fs st.created (thumbPath n) = true) :
    create_thumbnail fs st.created n (thumbPath n) = (true, st.created) := by
  unfold create_thumbnail
  rw [if_pos h1]

theorem create_thumbnail_of_decodable (fs : FS) (st : RunState) (n : String)
    (h1 : existsNow fs st.created (thumbPath n) = false)
    (h2 : fs.decodable n = true) :
    create_thumbnail fs st.created n (thumbPath n) =
      (true, st.created ++ [thumbPath n]) := by
  unfold create_thumbnail
  rw [if_neg (by rw [h1]; exact Bool.false_ne_true), if_pos h2]

theorem create_thumbnail_of_fail (fs : FS) (st : RunState) (n : String)
    (h1 : existsNow fs st.created (thumbPath n) = false)
    (h2 : fs.decodable n = false) :
    create_thumbnail fs st.created n (thumbPath n) = (false, st.created) := by
  unfold create_thumbnail
  rw [if_neg (by rw [h1]; exact Bool.false_ne_true),
    if_neg (by rw [h2]; exact Bool.false_ne_true)]

theorem processSource_of_exists (fs : FS) (st : RunState) (n : String)
    (h1 : existsNow fs st.created (thumbPath n) = true) :
    processSource fs st n = processEntry fs st n := by
  unfold processSource
  rw [create_thumbnail_of_exists fs st n h1]
  rfl

theorem processSource_of_decodable (fs : FS) (st : RunState) (n : String)
    (h1 : existsNow fs st.created (thumbPath n) = false)
    (h2 : fs.decodable n = true) :
    processSource fs st n =
      processEntry fs { st with created := st.created ++ [thumbPath n] } n := by
  unfold processSource
  rw [create_thumbnail_of_decodable fs st n h1 h2]
  rfl

theorem processSource_of_fail (fs : FS) (st : RunState) (n : String)
    (h1 : existsNow fs st.created (thumbPath n) = false)
    (h2 : fs.decodable n = false) :
    processSource fs st n = st := by
  unfold processSource
  rw [create_thumbnail_of_fail fs st n h1 h2]
  rfl

theorem processFound_created (fs : FS) (st : RunState) (n : String) (i : Nat) :
    (processFound fs st n i).created = st.created := by
  by_cases he : (st.gallery.getD i default).thumbnail = ""
  · rw [processFound_of_empty fs st n i he]; rfl
  · by_cases hne : (st.gallery.getD i default).thumbnail = relThumb n
    · rw [processFound_of_canonical fs st n i hne]
    · cases hex : existsNow fs st.created
          (normalize_key (st.gallery.getD i default).thumbnail) with
      | true => rw [processFound_of_kept fs st n i he hne hex]
      | false => rw [processFound_of_stale fs st n i he hne hex]; rfl

theorem processEntry_created (fs : FS) (st : RunState) (n : String) :
    (processEntry fs st n).created = st.created := by
  cases hL : lastIdx st.gallery (imgKey n) with
  | some i => rw [processEntry_of_some fs st n i hL, processFound_created]
  | none => rw [processEntry_of_none fs st n hL]; rfl

/-- Every step leaves `created` a (possibly trivial) extension. -/
theorem created_mono (fs : FS) (st : RunState) (n : String) :
    ∃ ex, (processSource fs st n).created = st.created ++ ex := by
  cases h1 : existsNow fs st.created (thumbPath n) with
  | true =>
    exact ⟨[], by rw [processSource_of_exists fs st n h1, processEntry_created]; simp⟩
  | false =>
    cases h2 : fs.decodable n with
    | true =>
      exact ⟨[thumbPath n],
        by rw [processSource_of_decodable fs st n h1 h2, processEntry_created]⟩
    | false => exact ⟨[], by rw [processSource_of_fail fs st n h1 h2]; simp⟩

/-- A step leaves the state untouched apart from `created`, or updates the
`thumbnail` of the last entry matching the key, or appends one new entry
with the next id; nothing else ever happens. -/
theorem step_cases (fs : FS) (st : RunState) (n : String) :
    (∃ c, processSource fs st n = { st with created := c }) ∨
    (∃ c i, lastIdx st.gallery (imgKey n) = some i ∧
       (st.gallery.getD i default).thumbnail ≠ relThumb n ∧
       processSource fs st n = { st with
         created := c
         gallery := st.gallery.set i
           { st.gallery.getD i default with thumbnail := relThumb n }
         changed := true }) ∨
    (∃ c, lastIdx st.gallery (imgKey n) = none ∧
       processSource fs st n = { st with
         created := c
         maxId := st.maxId + 1
         newEntries := st.newEntries ++
           [{ default_entry n (st.maxId + 1) with
                thumbnail := relThumb n, image := relImage n }]
         changed := true }) := by
  have main : ∀ st' : RunState, st'.gallery = st.gallery → st'.maxId = st.maxId →
      st'.changed = st.changed → st'.newEntries = st.newEntries →
      (∃ c, processEntry fs st' n = { st with created := c }) ∨
      (∃ c i, lastIdx st.gallery (imgKey n) = some i ∧
         (st.gallery.getD i default).thumbnail ≠ relThumb n ∧
         processEntry fs st' n = { st with
           created := c
           gallery := st.gallery.set i
             { st.gallery.getD i default with thumbnail := relThumb n }
           changed := true }) ∨
      (∃ c, lastIdx st.gallery (imgKey n) = none ∧
         processEntry fs st' n = { st with
           created := c
           maxId := st.maxId + 1
           newEntries := st.newEntries ++
             [{ default_entry n (st.maxId + 1) with
                  thumbnail := relThumb n, image := relImage n }]
           changed := true }) := by
    intro st' hg hm hc hn
    cases hL : lastIdx st'.gallery (imgKey n) with
    | some i =>
      rw [processEntry_of_some fs st' n i hL]
      rw [hg] at hL
      by_cases he : (st.gallery.getD i default).thumbnail = ""
      · refine Or.inr (Or.inl ⟨st'.created, i, hL, ?_, ?_⟩)
        · rw [he]; exact (relThumb_ne_empty n).symm
        · rw [processFound_of_empty fs st' n i (by rw [hg, he])]
          unfold setThumb
          cases st'
          cases st
          simp_all
      · by_cases hne : (st.gallery.getD i default).thumbnail = relThumb n
        · refine Or.inl ⟨st'.created, ?_⟩
          rw [processFound_of_canonical fs st' n i (by rw [hg, hne])]
          cases st'
          cases st
          simp_all
        · cases hex : existsNow fs st'.created
              (normalize_key (st'.gallery.getD i default).thumbnail) with
          | true =>
            refine Or.inl ⟨st'.created, ?_⟩
            rw [processFound_of_kept fs st' n i (by rw [hg]; exact he)
                (by rw [hg]; exact hne) hex]
            cases st'
            cases st
            simp_all
          | false =>
            refine Or.inr (Or.inl ⟨st'.created, i, hL, hne, ?_⟩)
            rw [processFound_of_stale fs st' n i (by rw [hg]; exact he)
                (by rw [hg]; exact hne) hex]
            unfold setThumb
            cases st'
            cases st
            simp_all
    | none =>
      rw [processEntry_of_none fs st' n hL]
      rw [hg] at hL
      refine Or.inr (Or.inr ⟨st'.created, hL, ?_⟩)
      unfold addNew
      cases st'
      cases st
      simp_all
  cases h1 : existsNow fs st.created (thumbPath n) with
  | true =>
    rw [processSource_of_exists fs st n h1]
    exact main st rfl rfl rfl rfl
  | false =>
    cases h2 : fs.decodable n with
    | true =>
      rw [processSource_of_decodable fs st n h1 h2]
      exact main { st with created := st.created ++ [thumbPath n] } rfl rfl rfl rfl
    | false =>
      rw [processSource_of_fail fs st n h1 h2]
      exact Or.inl ⟨st.created, rfl⟩

theorem processImage_of_thumbstem (fs : FS) (st : RunState) (n : String)
    (h : strEndsWith (lowerStr (stem n)) "thumb" = true) :
    processImage fs st n = st := by
  unfold processImage
  rw [if_pos h]

theorem processImage_of_source (fs : FS) (st : RunState) (n : String)
    (h : strEndsWith (lowerStr (stem n)) "thumb" = false) :
    processImage fs st n = processSource fs st n := by
  unfold processImage
  rw [if_neg (by rw [h]; exact Bool.false_ne_true)]

/-! ### Fold lemmas -/

theorem runSources_cons (fs : FS) (st : RunState) (n : String) (l : List String) :
    runSources fs st (n :: l) = runSources fs (processSource fs st n) l := rfl

theorem runSources_append (fs : FS) (st : RunState) (l₁ l₂ : List String) :
    runSources fs st (l₁ ++ l₂) = runSources fs (runSources fs st l₁) l₂ :=
  List.foldl_append ..

theorem runFiles_cons (fs : FS) (st : RunState) (n : String) (l : List String) :
    runFiles fs st (n :: l) = runFiles fs (processImage fs st n) l := rfl

theorem runFiles_append (fs : FS) (st : RunState) (l₁ l₂ : List String) :
    runFiles fs st (l₁ ++ l₂) = runFiles fs (runFiles fs st l₁) l₂ :=
  List.foldl_append ..

theorem imageFiles_cons (n : String) (files : List String) :
    imageFiles (n :: files) =
      if is_image_file n then n :: imageFiles files else imageFiles files := by
  unfold imageFiles
  rw [List.filter_cons]

theorem sourceImages_cons (n : String) (files : List String) :
    sourceImages (n :: files) =
      if is_image_file n && !strEndsWith (lowerStr (stem n)) "thumb" then
        n :: sourceImages files
      else sourceImages files := by
  unfold sourceImages
  rw [imageFiles_cons]
  by_cases h1 : is_image_file n = true
  · rw [if_pos h1, List.filter_cons]
    by_cases h2 : strEndsWith (lowerStr (stem n)) "thumb" = true
    · rw [if_neg (by rw [h2]; simp), if_neg (by rw [h1, h2]; simp)]
    · have h2' : strEndsWith (lowerStr (stem n)) "thumb" = false :=
        Bool.not_eq_true _ |>.mp h2
      rw [if_pos (by rw [h2']; rfl), if_pos (by rw [h1, h2']; rfl)]
  · have h1' : is_image_file n = false := Bool.not_eq_true _ |>.mp h1
    rw [if_neg h1, if_neg (by rw [h1']; simp)]

/-- The loop over all image files is the loop over the source images: the
skipped thumbnail-named files contribute nothing. -/
theorem runFiles_filter (fs : FS) (files : List String) : ∀ st : RunState,
    runFiles fs st (imageFiles files) = runSources fs st (sourceImages files) := by
  induction files with
  | nil => intro st; rfl
  | cons n files ih =>
    intro st
    rw [imageFiles_cons, sourceImages_cons]
    by_cases h1 : is_image_file n = true
    · rw [if_pos h1]
      by_cases h2 : strEndsWith (lowerStr (stem n)) "thumb" = true
      · rw [runFiles_cons, processImage_of_thumbstem fs st n h2,
          if_neg (by rw [h1, h2]; simp)]
        exact ih st
      · have h2' : strEndsWith (lowerStr (stem n)) "thumb" = false :=
          Bool.not_eq_true _ |>.mp h2
        rw [runFiles_cons, processImage_of_source fs st n h2',
          if_pos (by rw [h1, h2']; rfl), runSources_cons]
        exact ih _
    · have h1' : is_image_file n = false := Bool.not_eq_true _ |>.mp h1
      rw [if_neg h1, if_neg (by rw [h1']; simp)]
      exact ih st

theorem runSources_created_mono (fs : FS) (l : List String) : ∀ st : RunState,
    ∃ ex, (runSources fs st l).created = st.created ++ ex := by
  induction l with
  | nil => exact fun st => ⟨[], by simp [runSources]⟩
  | cons n l ih =>
    intro st
    obtain ⟨ex₁, h₁⟩ := created_mono fs st n
    obtain ⟨ex₂, h₂⟩ := ih (processSource fs st n)
    exact ⟨ex₁ ++ ex₂, by rw [runSources_cons, h₂, h₁, List.append_assoc]⟩

/-- `existsNow` is monotone along a run. -/
theorem existsNow_mono (fs : FS) (c ex : List String) (p : String)
    (h : existsNow fs c p = true) : existsNow fs (c ++ ex) p = true := by
  unfold existsNow at *
  rcases Bool.or_eq_true_iff.mp h with h' | h'
  · rw [h']; rfl
  · apply Bool.or_eq_true_iff.mpr
    refine Or.inr ?_
    rw [List.elem_iff] at h' ⊢
    exact List.mem_append.mpr (Or.inl h')

/-! ### Preservation of `AgreeAll` -/

theorem agreeAll_step (fs : FS) (st : RunState) (n : String) (g : List Entry)
    (h : AgreeAll g st.gallery) : AgreeAll g (processSource fs st n).gallery := by
  rcases step_cases fs st n with ⟨c, hst⟩ | ⟨c, i, hL, hne, hst⟩ | ⟨c, hL, hst⟩
  · rw [hst]; exact h
  · rw [hst]
    obtain ⟨hlen, hag⟩ := h
    constructor
    · simp only [List.length_set]
      exact hlen
    · intro j
      rw [getD_set]
      by_cases hij : i = j ∧ i < st.gallery.length
      · rw [if_pos hij]
        rw [← hij.1]
        exact agree_setThumb (hag i) _
      · rw [if_neg hij]
        exact hag j
  · rw [hst]; exact h

theorem agreeAll_fold (fs : FS) (g : List Entry) (l : List String) :
    ∀ st : RunState, AgreeAll g st.gallery →
      AgreeAll g (runSources fs st l).gallery := by
  induction l with
  | nil => exact fun st h => h
  | cons n l ih =>
    intro st h
    rw [runSources_cons]
    exact ih _ (agreeAll_step fs st n g h)

/-! ### Projections of a full run through the source-image loop -/

theorem run_gallery (fs : FS) (g : List Entry) :
    (run fs g).gallery =
      (runSources fs (initState g) (sourceImages fs.files)).gallery ++
      (runSources fs (initState g) (sourceImages fs.files)).newEntries := by
  unfold run
  rw [runFiles_filter]

theorem run_changed (fs : FS) (g : List Entry) :
    (run fs g).changed =
      (runSources fs (initState g) (sourceImages fs.files)).changed := by
  unfold run
  rw [runFiles_filter]

theorem run_created (fs : FS) (g : List Entry) :
    (run fs g).created =
      (runSources fs (initState g) (sourceImages fs.files)).created := by
  unfold run
  rw [runFiles_filter]

theorem run_newEntries (fs : FS) (g : List Entry) :
    (run fs g).newEntries =
      (runSources fs (initState g) (sourceImages fs.files)).newEntries := by
  unfold run
  rw [runFiles_filter]

/-! ### Claim theorems -/

/-- Claim C3: for a `w × h` image the crop box returned by
`make_center_square` has side `min w h` on both axes, lies inside the
image, its left/top offsets are the floored half-margins
`(w - min w h) / 2` and `(h - min w h) / 2`, the left and right margins
differ by at most `1` (likewise top and bottom), and an image is returned
unchanged (`none`) exactly when it is already square. -/
theorem C3_center_square_crop (w h : Nat) :
    (make_center_square w h = none ↔ w = h) ∧
    Option.elim (make_center_square w h) True (fun q =>
      q.2.2.1 - q.1 = min w h ∧ q.2.2.2 - q.2.1 = min w h ∧
      q.2.2.1 ≤ w ∧ q.2.2.2 ≤ h ∧
      q.1 = (w - min w h) / 2 ∧ q.2.1 = (h - min w h) / 2 ∧
      w - q.2.2.1 ≤ q.1 + 1 ∧ q.1 ≤ (w - q.2.2.1) + 1 ∧
      h - q.2.2.2 ≤ q.2.1 + 1 ∧ q.2.1 ≤ (h - q.2.2.2) + 1) := by
  unfold make_center_square
  by_cases hwh : w = h
  · rw [if_pos (beq_iff_eq.mpr hwh)]
    exact ⟨⟨fun _ => hwh, fun _ => rfl⟩, trivial⟩
  · rw [if_neg (by rw [beq_iff_eq]; exact hwh)]
    have hmw : min w h ≤ w := Nat.min_le_left w h
    have hmh : min w h ≤ h := Nat.min_le_right w h
    constructor
    · constructor
      · intro hc; exact absurd hc (by simp)
      · intro hc; exact absurd hc hwh
    · dsimp only [Option.elim]
      refine ⟨by omega, by omega, by omega, by omega, rfl, rfl,
        by omega, by omega, by omega, by omega⟩

/-- Claim C1: one run never touches any field but `thumbnail` of the
pre-existing entries: the output catalog restricted to the first
`g.length` positions agrees with the input catalog entry by entry on
`id`, `title`, `description`, `category`, `image`, `location`, `date`,
`camera` and `tags` (see `agreeExceptThumb`), in particular for every
entry whose source image still exists. -/
theorem C1_existing_fields_preserved (fs : FS) (g : List Entry) :
    AgreeAll g ((run fs g).gallery.take g.length) := by
  obtain ⟨hlen, hag⟩ :=
    agreeAll_fold fs g (sourceImages fs.files) (initState g) (agreeAll_refl g)
  rw [run_gallery, hlen, List.take_left]
  exact ⟨hlen, hag⟩

/-- Claim C9: the reconciler never deletes an entry: the output catalog is
at least as long as the input one, and at every position `i < g.length` it
still carries the input entry (with at most the `thumbnail` field
rewritten), in the same relative order, regardless of whether the entry's
backing files still exist. -/
theorem C9_no_deletion (fs : FS) (g : List Entry) :
    g.length ≤ (run fs g).gallery.length ∧
    ∀ i, ((run fs g).gallery.take g.length).getD i default =
      { g.getD i default with
          thumbnail := (((run fs g).gallery.take g.length).getD i default).thumbnail } := by
  obtain ⟨hlen, hag⟩ :=
    agreeAll_fold fs g (sourceImages fs.files) (initState g) (agreeAll_refl g)
  constructor
  · rw [run_gallery, List.length_append, ← hlen]
    omega
  · intro i
    rw [run_gallery, hlen, List.take_left]
    exact agree_eq_setThumb (hag i)

/-- Claim C6 (amended): the files processed as source images are exactly
the directory entries whose extension lowers to `.jpg`/`.jpeg` and whose
stem, lowered, does not end in `"thumb"` (the code strips the `-` from the
suffix before testing); all other enumerated image files are skipped and
contribute nothing to the run. -/
theorem C6_source_selection (fs : FS) (st : RunState) (files : List String) :
    runFiles fs st (imageFiles files) = runSources fs st (sourceImages files) ∧
    ∀ n, n ∈ sourceImages files ↔
      (n ∈ files ∧ is_image_file n = true ∧
       strEndsWith (lowerStr (stem n)) "thumb" = false) := by
  refine ⟨runFiles_filter fs files st, fun n => ?_⟩
  unfold sourceImages imageFiles
  rw [List.mem_filter, List.mem_filter]
  constructor
  · rintro ⟨⟨hmem, himg⟩, hth⟩
    exact ⟨hmem, himg, by simpa using hth⟩
  · rintro ⟨hmem, himg, hth⟩
    exact ⟨⟨hmem, himg⟩, by simpa using hth⟩

/-- Claim C6 as frozen is false: `xthumb.jpg` has a `.jpg` extension and
its stem `xthumb` does not end in `-thumb`, so the claim counts it as a
source image; but the code skips every stem ending in `thumb`, so a run
over a directory holding only a decodable `xthumb.jpg` creates no
thumbnail and no catalog entry. -/
theorem C6_counterexample :
    is_image_file "xthumb.jpg" = true ∧
    strEndsWith (stem "xthumb.jpg") "-thumb" = false ∧
    (run ⟨["xthumb.jpg"], fun _ => false, fun _ => true⟩ []).gallery = [] ∧
    (run ⟨["xthumb.jpg"], fun _ => false, fun _ => true⟩ []).created = [] := by
  refine ⟨by decide, by decide, by decide, by decide⟩

theorem processFound_policy (fs : FS) (st : RunState) (n : String) (i : Nat) :
    ((st.gallery.getD i default).thumbnail ≠ "" ∧
      ((st.gallery.getD i default).thumbnail = relThumb n ∨
       existsNow fs st.created
         (normalize_key (st.gallery.getD i default).thumbnail) = true) →
      processFound fs st n i = st) ∧
    ((st.gallery.getD i default).thumbnail = "" ∨
      ((st.gallery.getD i default).thumbnail ≠ relThumb n ∧
       existsNow fs st.created
         (normalize_key (st.gallery.getD i default).thumbnail) = false) →
      processFound fs st n i = setThumb st i (st.gallery.getD i default) n) := by
  constructor
  · rintro ⟨he, hor⟩
    rcases hor with hrel | hex
    · exact processFound_of_canonical fs st n i hrel
    · by_cases hrel : (st.gallery.getD i default).thumbnail = relThumb n
      · exact processFound_of_canonical fs st n i hrel
      · exact processFound_of_kept fs st n i he hrel hex
  · intro hor
    rcases hor with he | ⟨hrel, hex⟩
    · exact processFound_of_empty fs st n i he
    · by_cases he : (st.gallery.getD i default).thumbnail = ""
      · exact processFound_of_empty fs st n i he
      · exact processFound_of_stale fs st n i he hrel hex

/-- Claim C4: when a source image `n` has a catalog entry (the last entry
matching the normalized key) and thumbnail creation succeeds, the entry's
`thumbnail` is overwritten with the derived `./images/<stem>-thumb.jpg`
exactly when it is empty, or differs from the derived path and names a path
that does not exist (at check time, i.e. counting thumbnails this run
already wrote); a differing `thumbnail` that points to an existing file is
kept, and no other entry of the catalog is touched in either case. -/
theorem C4_thumbnail_backfill_policy (fs : FS) (st : RunState) (n : String) (i : Nat)
    (hfind : lastIdx st.gallery (imgKey n) = some i)
    (hok : (create_thumbnail fs st.created n (thumbPath n)).1 = true) :
    ((st.gallery.getD i default).thumbnail ≠ "" ∧
      ((st.gallery.getD i default).thumbnail = relThumb n ∨
       existsNow fs (create_thumbnail fs st.created n (thumbPath n)).2
         (normalize_key (st.gallery.getD i default).thumbnail) = true) →
      (processSource fs st n).gallery = st.gallery) ∧
    ((st.gallery.getD i default).thumbnail = "" ∨
      ((st.gallery.getD i default).thumbnail ≠ relThumb n ∧
       existsNow fs (create_thumbnail fs st.created n (thumbPath n)).2
         (normalize_key (st.gallery.getD i default).thumbnail) = false) →
      (processSource fs st n).gallery =
        st.gallery.set i
          { st.gallery.getD i default with thumbnail := relThumb n }) := by
  cases h1 : existsNow fs st.created (thumbPath n) with
  | true =>
    have hct := create_thumbnail_of_exists fs st n h1
    rw [processSource_of_exists fs st n h1,
      processEntry_of_some fs st n i hfind, hct]
    obtain ⟨hkeep, hset⟩ := processFound_policy fs st n i
    constructor
    · intro hh
      rw [hkeep hh]
    · intro hh
      rw [hset hh]
      rfl
  | false =>
    cases h2 : fs.decodable n with
    | true =>
      have hct := create_thumbnail_of_decodable fs st n h1 h2
      rw [processSource_of_decodable fs st n h1 h2,
        processEntry_of_some fs { st with created := st.created ++ [thumbPath n] }
          n i hfind, hct]
      obtain ⟨hkeep, hset⟩ :=
        processFound_policy fs { st with created := st.created ++ [thumbPath n] } n i
      constructor
      · intro hh
        rw [hkeep hh]
      · intro hh
        rw [hset hh]
        rfl
    | false =>
      rw [create_thumbnail_of_fail fs st n h1 h2] at hok
      exact absurd hok (by simp)

/-- Claim C7: if, when a file `bad` is reached, its derived thumbnail is
absent and decoding it fails, that loop iteration is a no-op, so the whole
run equals the run on the same list with `bad` removed: the failure is
logged and skipped, no entry is added or updated for `bad`, and every file
before and after it is processed exactly as it would have been. -/
theorem C7_corrupt_image_skipped (fs : FS) (st : RunState)
    (l1 l2 : List String) (bad : String)
    (h1 : existsNow fs (runFiles fs st l1).created (thumbPath bad) = false)
    (h2 : fs.decodable bad = false) :
    runFiles fs st (l1 ++ bad :: l2) = runFiles fs st (l1 ++ l2) := by
  have hid : processImage fs (runFiles fs st l1) bad = runFiles fs st l1 := by
    by_cases hth : strEndsWith (lowerStr (stem bad)) "thumb" = true
    · exact processImage_of_thumbstem fs _ bad hth
    · rw [processImage_of_source fs _ bad (Bool.not_eq_true _ |>.mp hth)]
      exact processSource_of_fail fs _ bad h1 h2
  rw [runFiles_append, runFiles_cons, hid, ← runFiles_append]

/-- Witness for `C7_corrupt_image_skipped` at a concrete directory holding
a good image, a corrupt image, and another good image. -/
theorem C7_corrupt_image_skipped_witness :
    runFiles ⟨["a.jpg", "bad.jpg", "c.jpg"], fun _ => false, fun n => !(n == "bad.jpg")⟩
        (initState []) (["a.jpg"] ++ "bad.jpg" :: ["c.jpg"]) =
      runFiles ⟨["a.jpg", "bad.jpg", "c.jpg"], fun _ => false, fun n => !(n == "bad.jpg")⟩
        (initState []) (["a.jpg"] ++ ["c.jpg"]) :=
  C7_corrupt_image_skipped
    ⟨["a.jpg", "bad.jpg", "c.jpg"], fun _ => false, fun n => !(n == "bad.jpg")⟩
    (initState []) ["a.jpg"] ["c.jpg"] "bad.jpg" (by decide) (by decide)

/-! ### Key membership -/

theorem containsKey_append (a b : List Entry) (k : String) :
    containsKey (a ++ b) k = (containsKey a k || containsKey b k) := by
  unfold containsKey
  exact List.any_append

theorem containsKey_of_lastIdx_some {g : List Entry} {k : String} {i : Nat}
    (h : lastIdx g k = some i) : containsKey g k = true := by
  unfold containsKey
  rw [List.any_eq_true]
  exact ⟨g.getD i default, getD_mem g i default (lastIdx_lt g k i h),
    beq_iff_eq.mpr (lastIdx_keyOf g k i h)⟩

theorem containsKey_set_thumb (g : List Entry) (i : Nat) (t k : String) :
    containsKey (g.set i { g.getD i default with thumbnail := t }) k =
      containsKey g k := by
  induction g generalizing i with
  | nil => rfl
  | cons e g ih =>
    cases i with
    | zero => rfl
    | succ i =>
      simp only [List.set_cons_succ, containsKey, List.any_cons, List.getD_cons_succ]
      rw [show (g.set i { g.getD i default with thumbnail := t }).any
            (fun e => keyOf e == k) =
          containsKey (g.set i { g.getD i default with thumbnail := t }) k from rfl,
        ih i]
      rfl

theorem processFound_newEntries (fs : FS) (st : RunState) (n : String) (i : Nat) :
    (processFound fs st n i).newEntries = st.newEntries := by
  by_cases he : (st.gallery.getD i default).thumbnail = ""
  · rw [processFound_of_empty fs st n i he]; rfl
  · by_cases hne : (st.gallery.getD i default).thumbnail = relThumb n
    · rw [processFound_of_canonical fs st n i hne]
    · cases hex : existsNow fs st.created
          (normalize_key (st.gallery.getD i default).thumbnail) with
      | true => rw [processFound_of_kept fs st n i he hne hex]
      | false => rw [processFound_of_stale fs st n i he hne hex]; rfl

theorem processFound_gallery_cases (fs : FS) (st : RunState) (n : String) (i : Nat) :
    (processFound fs st n i).gallery = st.gallery ∨
    (processFound fs st n i).gallery =
      st.gallery.set i { st.gallery.getD i default with thumbnail := relThumb n } := by
  by_cases he : (st.gallery.getD i default).thumbnail = ""
  · rw [processFound_of_empty fs st n i he]
    exact Or.inr rfl
  · by_cases hne : (st.gallery.getD i default).thumbnail = relThumb n
    · rw [processFound_of_canonical fs st n i hne]
      exact Or.inl rfl
    · cases hex : existsNow fs st.created
          (normalize_key (st.gallery.getD i default).thumbnail) with
      | true =>
        rw [processFound_of_kept fs st n i he hne hex]
        exact Or.inl rfl
      | false =>
        rw [processFound_of_stale fs st n i he hne hex]
        exact Or.inr rfl

theorem containsKey_step (fs : FS) (st : RunState) (n : String) (k : String)
    (h : containsKey (st.gallery ++ st.newEntries) k = true) :
    containsKey ((processSource fs st n).gallery ++
      (processSource fs st n).newEntries) k = true := by
  rcases step_cases fs st n with ⟨c, hst⟩ | ⟨c, i, hL, hne, hst⟩ | ⟨c, hL, hst⟩
  · rw [hst]; exact h
  · rw [hst]
    show containsKey ((st.gallery.set i
      { st.gallery.getD i default with thumbnail := relThumb n }) ++
        st.newEntries) k = true
    rw [containsKey_append, containsKey_set_thumb, ← containsKey_append]
    exact h
  · rw [hst]
    show containsKey (st.gallery ++ (st.newEntries ++
      [{ default_entry n (st.maxId + 1) with
           thumbnail := relThumb n, image := relImage n }])) k = true
    rw [← List.append_assoc, containsKey_append, h]
    rfl

theorem containsKey_fold (fs : FS) (l : List String) (k : String) :
    ∀ st : RunState, containsKey (st.gallery ++ st.newEntries) k = true →
      containsKey ((runSources fs st l).gallery ++
        (runSources fs st l).newEntries) k = true := by
  induction l with
  | nil => exact fun st h => h
  | cons n l ih =>
    intro st h
    rw [runSources_cons]
    exact ih _ (containsKey_step fs st n k h)

/-- Claim C10: when the derived thumbnail of a source image already exists
on disk, `create_thumbnail` reports success without consulting the decoder
at all (the result is the same for every decodability predicate, with no
new file written), and consequently such an image ends the run with a
catalog entry under its key even if the source file itself is corrupt. -/
theorem C10_existing_thumb_skips_decode (fs : FS) (g : List Entry) (n : String)
    (hmem : n ∈ sourceImages fs.files)
    (hex : fs.pathExists (thumbPath n) = true) :
    (∀ (created : List String) (dec : String → Bool),
       create_thumbnail { fs with decodable := dec } created n (thumbPath n) =
         (true, created)) ∧
    containsKey (run fs g).gallery (imgKey n) = true := by
  constructor
  · intro created dec
    unfold create_thumbnail
    rw [if_pos (by unfold existsNow; rw [show ({ fs with decodable := dec } : FS).pathExists = fs.pathExists from rfl, hex]; rfl)]
  · obtain ⟨l1, l2, hsplit⟩ := List.append_of_mem hmem
    rw [run_gallery, hsplit, runSources_append, runSources_cons]
    apply containsKey_fold
    have h1 : existsNow fs (runSources fs (initState g) l1).created
        (thumbPath n) = true := by
      unfold existsNow
      rw [hex]
      rfl
    rw [processSource_of_exists fs _ n h1]
    cases hL : lastIdx (runSources fs (initState g) l1).gallery (imgKey n) with
    | some i =>
      rw [processEntry_of_some fs _ n i hL]
      have hck := containsKey_of_lastIdx_some hL
      rw [containsKey_append, processFound_newEntries]
      rcases processFound_gallery_cases fs (runSources fs (initState g) l1) n i
        with hg | hg
      · rw [hg, hck]
        rfl
      · rw [hg, containsKey_set_thumb, hck]
        rfl
    | none =>
      rw [processEntry_of_none fs _ n hL]
      show containsKey ((runSources fs (initState g) l1).gallery ++
        ((runSources fs (initState g) l1).newEntries ++
          [{ default_entry n ((runSources fs (initState g) l1).maxId + 1) with
               thumbnail := relThumb n, image := relImage n }])) (imgKey n) = true
      rw [← List.append_assoc, containsKey_append]
      have hlast : containsKey
          [{ default_entry n ((runSources fs (initState g) l1).maxId + 1) with
               thumbnail := relThumb n, image := relImage n }] (imgKey n) = true := by
        unfold containsKey
        simp only [List.any_cons, List.any_nil, Bool.or_false]
        exact beq_iff_eq.mpr (normalize_key_relImage n)
      rw [hlast]
      simp

/-- Witness for `C10_existing_thumb_skips_decode`: a corrupt `bad.jpg`
whose `bad-thumb.jpg` already exists still ends the run catalogued. -/
theorem C10_existing_thumb_skips_decode_witness :
    create_thumbnail
        ⟨["bad.jpg"], fun p => p == "images/bad-thumb.jpg", fun _ => false⟩
        [] "bad.jpg" (thumbPath "bad.jpg") = (true, []) ∧
    containsKey
      (run ⟨["bad.jpg"], fun p => p == "images/bad-thumb.jpg", fun _ => false⟩
        []).gallery (imgKey "bad.jpg") = true := by
  have h := C10_existing_thumb_skips_decode
    ⟨["bad.jpg"], fun p => p == "images/bad-thumb.jpg", fun _ => false⟩
    [] "bad.jpg" (by decide) (by decide)
  exact ⟨h.1 [] (fun _ => false), h.2⟩

/-- Witness for `C4_thumbnail_backfill_policy`: an entry whose customized
`thumbnail` points to an existing alternate file is not overwritten. -/
theorem C4_thumbnail_backfill_policy_witness :
    (processSource ⟨["a.jpg"], fun p => p == "images/custom.jpg", fun _ => true⟩
        { gallery := [{ id := 1, title := "a", description := "d",
                        category := "c", thumbnail := "images/custom.jpg",
                        image := "./images/a.jpg", location := "l",
                        date := "2000-01-01", camera := "cam", tags := [] }],
          maxId := 1, changed := false, newEntries := [], created := [] }
        "a.jpg").gallery =
      [{ id := 1, title := "a", description := "d",
         category := "c", thumbnail := "images/custom.jpg",
         image := "./images/a.jpg", location := "l",
         date := "2000-01-01", camera := "cam", tags := [] }] :=
  (C4_thumbnail_backfill_policy
      ⟨["a.jpg"], fun p => p == "images/custom.jpg", fun _ => true⟩
      { gallery := [{ id := 1, title := "a", description := "d",
                      category := "c", thumbnail := "images/custom.jpg",
                      image := "./images/a.jpg", location := "l",
                      date := "2000-01-01", camera := "cam", tags := [] }],
        maxId := 1, changed := false, newEntries := [], created := [] }
      "a.jpg" 0 (by decide) (by decide)).1
    ⟨by decide, Or.inr (by decide)⟩

/-! ### The id watermark -/

theorem foldl_maxid_init (x : Int) (l : List Entry) :
    x ≤ l.foldl (fun m e => max m e.id) x := by
  induction l generalizing x with
  | nil => exact le_refl x
  | cons a l ih => exact le_trans (le_max_left x a.id) (ih (max x a.id))

theorem foldl_maxid_mem (l : List Entry) (e : Entry) (he : e ∈ l) :
    ∀ x : Int, e.id ≤ l.foldl (fun m e => max m e.id) x := by
  induction l with
  | nil => simp at he
  | cons a l ih =>
    intro x
    rcases List.mem_cons.mp he with rfl | hmem
    · exact le_trans (le_max_right x e.id) (foldl_maxid_init (max x e.id) l)
    · exact ih hmem (max x a.id)

theorem id_le_initMaxId (g : List Entry) (e : Entry) (he : e ∈ g) :
    e.id ≤ initMaxId g := by
  cases g with
  | nil => simp at he
  | cons e0 rest =>
    unfold initMaxId
    rcases List.mem_cons.mp he with rfl | hmem
    · exact foldl_maxid_init e.id rest
    · exact foldl_maxid_mem rest e hmem e0.id

/-! ### Invariant `Inv1`: preserved fields, id discipline, new-entry shape -/

theorem inv1_init (g : List Entry) : Inv1 g [] (initState g) := by
  refine ⟨agreeAll_refl g, ?_, ?_⟩
  · show initMaxId g = initMaxId g + ((0 : Nat) : Int)
    simp
  · intro j hj
    simp [initState] at hj

theorem inv1_step (fs : FS) (g : List Entry) (done : List String) (st : RunState)
    (n : String) (h : Inv1 g done st) : Inv1 g (done ++ [n]) (processSource fs st n) := by
  obtain ⟨hA, hM, hS⟩ := h
  refine ⟨agreeAll_step fs st n g hA, ?_, ?_⟩
  · rcases step_cases fs st n with ⟨c, hst⟩ | ⟨c, i, hL, hne, hst⟩ | ⟨c, hL, hst⟩
    · rw [hst]; exact hM
    · rw [hst]; exact hM
    · rw [hst]
      show st.maxId + 1 = initMaxId g +
        ((st.newEntries ++ [{ default_entry n (st.maxId + 1) with
            thumbnail := relThumb n, image := relImage n }]).length : Int)
      rw [List.length_append, hM, List.length_singleton]
      push_cast
      ring
  · rcases step_cases fs st n with ⟨c, hst⟩ | ⟨c, i, hL, hne, hst⟩ | ⟨c, hL, hst⟩
    · rw [hst]
      intro j hj
      obtain ⟨n', hn', hLn', he'⟩ := hS j hj
      exact ⟨n', List.mem_append.mpr (Or.inl hn'), hLn', he'⟩
    · rw [hst]
      intro j hj
      obtain ⟨n', hn', hLn', he'⟩ := hS j hj
      exact ⟨n', List.mem_append.mpr (Or.inl hn'), hLn', he'⟩
    · rw [hst]
      intro j hj
      show ∃ n', n' ∈ done ++ [n] ∧ lastIdx g (imgKey n') = none ∧
        (st.newEntries ++ [{ default_entry n (st.maxId + 1) with
            thumbnail := relThumb n, image := relImage n }]).getD j default =
          { default_entry n' (initMaxId g + (j : Int) + 1) with
              thumbnail := relThumb n', image := relImage n' }
      rw [getD_append]
      by_cases hjlt : j < st.newEntries.length
      · rw [if_pos hjlt]
        obtain ⟨n', hn', hLn', he'⟩ := hS j hjlt
        exact ⟨n', List.mem_append.mpr (Or.inl hn'), hLn', he'⟩
      · rw [if_neg hjlt]
        have hj' : j = st.newEntries.length := by
          have h2 := hj
          simp only [List.length_append, List.length_singleton] at h2
          omega
        refine ⟨n, List.mem_append.mpr (Or.inr (List.mem_singleton.mpr rfl)), ?_, ?_⟩
        · rw [← agreeAll_lastIdx g st.gallery hA (imgKey n)]
          exact hL
        · rw [hj', Nat.sub_self, List.getD_cons_zero, hM]

theorem inv1_fold (fs : FS) (g : List Entry) (l : List String) :
    ∀ (done : List String) (st : RunState), Inv1 g done st →
      Inv1 g (done ++ l) (runSources fs st l) := by
  induction l with
  | nil => intro done st h; rw [List.append_nil]; exact h
  | cons n l ih =>
    intro done st h
    rw [runSources_cons, show done ++ n :: l = (done ++ [n]) ++ l by simp]
    exact ih (done ++ [n]) (processSource fs st n) (inv1_step fs g done st n h)

theorem agreeAll_map_id : ∀ (g G : List Entry), AgreeAll g G →
    g.map Entry.id = G.map Entry.id
  | [], [], _ => rfl
  | [], _ :: _, h => by simp [AgreeAll] at h
  | _ :: _, [], h => by simp [AgreeAll] at h
  | e :: g, E :: G, h => by
      obtain ⟨hlen, hag⟩ := h
      have h0 := (hag 0).1
      simp only [List.getD_cons_zero] at h0
      have ih := agreeAll_map_id g G
        ⟨by simpa using hlen, fun i => by simpa using hag (i + 1)⟩
      simp only [List.map_cons, ih, h0]

theorem step_newEntries_prefix (fs : FS) (st : RunState) (n : String) :
    ∃ t, (processSource fs st n).newEntries = st.newEntries ++ t := by
  rcases step_cases fs st n with ⟨c, hst⟩ | ⟨c, i, hL, hne, hst⟩ | ⟨c, hL, hst⟩
  · exact ⟨[], by rw [hst, List.append_nil]⟩
  · exact ⟨[], by rw [hst, List.append_nil]⟩
  · exact ⟨[{ default_entry n (st.maxId + 1) with
        thumbnail := relThumb n, image := relImage n }], by rw [hst]⟩

theorem fold_newEntries_prefix (fs : FS) (l : List String) :
    ∀ st : RunState, ∃ t, (runSources fs st l).newEntries = st.newEntries ++ t := by
  induction l with
  | nil => exact fun st => ⟨[], (List.append_nil _).symm⟩
  | cons n l ih =>
    intro st
    rw [runSources_cons]
    obtain ⟨t1, h1⟩ := step_newEntries_prefix fs st n
    obtain ⟨t2, h2⟩ := ih (processSource fs st n)
    exact ⟨t1 ++ t2, by rw [h2, h1, List.append_assoc]⟩

theorem step_appends (fs : FS) (g : List Entry) (done : List String)
    (st : RunState) (n : String) (h : Inv1 g done st)
    (hnone : lastIdx g (imgKey n) = none) (hok : okSrc fs n = true) :
    st.newEntries.length < (processSource fs st n).newEntries.length ∧
    (processSource fs st n).newEntries.getD st.newEntries.length default =
      { default_entry n (initMaxId g + (st.newEntries.length : Int) + 1) with
          thumbnail := relThumb n, image := relImage n } := by
  obtain ⟨hA, hM, hS⟩ := h
  have hLst : lastIdx st.gallery (imgKey n) = none :=
    (agreeAll_lastIdx g st.gallery hA (imgKey n)).trans hnone
  cases h1 : existsNow fs st.created (thumbPath n) with
  | true =>
    rw [processSource_of_exists fs st n h1, processEntry_of_none fs st n hLst]
    refine ⟨?_, ?_⟩
    · show st.newEntries.length < (st.newEntries ++
          [{ default_entry n (st.maxId + 1) with
               thumbnail := relThumb n, image := relImage n }]).length
      rw [List.length_append, List.length_singleton]
      omega
    · show (st.newEntries ++
          [{ default_entry n (st.maxId + 1) with
               thumbnail := relThumb n, image := relImage n }]).getD
            st.newEntries.length default = _
      rw [getD_append, if_neg (lt_irrefl _), Nat.sub_self, List.getD_cons_zero, hM]
  | false =>
    have hp : fs.pathExists (thumbPath n) = false := by
      cases hp : fs.pathExists (thumbPath n)
      · rfl
      · exfalso
        unfold existsNow at h1
        rw [hp] at h1
        simp at h1
    have hdec : fs.decodable n = true := by
      unfold okSrc at hok
      rw [hp] at hok
      simpa using hok
    rw [processSource_of_decodable fs st n h1 hdec,
      processEntry_of_none fs { st with created := st.created ++ [thumbPath n] } n hLst]
    refine ⟨?_, ?_⟩
    · show st.newEntries.length < (st.newEntries ++
          [{ default_entry n (st.maxId + 1) with
               thumbnail := relThumb n, image := relImage n }]).length
      rw [List.length_append, List.length_singleton]
      omega
    · show (st.newEntries ++
          [{ default_entry n (st.maxId + 1) with
               thumbnail := relThumb n, image := relImage n }]).getD
            st.newEntries.length default = _
      rw [getD_append, if_neg (lt_irrefl _), Nat.sub_self, List.getD_cons_zero, hM]

theorem appends_fold (fs : FS) (g : List Entry) (l : List String) :
    ∀ (done : List String) (st : RunState), Inv1 g done st →
      ∀ n ∈ l, lastIdx g (imgKey n) = none → okSrc fs n = true →
        ∃ j, j < (runSources fs st l).newEntries.length ∧
          (runSources fs st l).newEntries.getD j default =
            { default_entry n (initMaxId g + (j : Int) + 1) with
                thumbnail := relThumb n, image := relImage n } := by
  induction l with
  | nil =>
    intro done st _ n hn
    cases hn
  | cons m l ih =>
    intro done st h n hn hnone hok
    rw [runSources_cons]
    rcases List.mem_cons.mp hn with rfl | hn'
    · obtain ⟨hjlt, hjget⟩ := step_appends fs g done st n h hnone hok
      obtain ⟨t, ht⟩ := fold_newEntries_prefix fs l (processSource fs st n)
      refine ⟨st.newEntries.length, ?_, ?_⟩
      · rw [ht, List.length_append]
        omega
      · rw [ht, getD_append, if_pos hjlt]
        exact hjget
    · exact ih (done ++ [m]) (processSource fs st m) (inv1_step fs g done st m h)
        n hn' hnone hok

/-- Claim C5 (amended): new entries are appended after the preserved prefix;
each one is `default_entry` (placeholder `"NaN"`/`"None"` metadata, tags
`["None"]`, default date) with the canonical stored paths `./images/<name>`
and `./images/<stem>-thumb.jpg`, its key was absent from the loaded catalog,
and its id is `initMaxId g + position + 1` — one increment per new entry;
conversely, every source image whose key is absent from the loaded catalog
and whose thumbnail creation succeeds (its derived thumbnail is already on
disk or the source is decodable) gets such an appended entry; and if the
loaded catalog's ids are pairwise distinct, so are the ids of the whole
resulting catalog.  Without the no-failure proviso the universal direction
of the original claim is false, see `C5_counterexample`. -/
theorem C5_new_entry_ids (fs : FS) (g : List Entry) :
    (run fs g).gallery.length = g.length + (run fs g).newEntries.length ∧
    (run fs g).gallery.drop g.length = (run fs g).newEntries ∧
    (∀ j, j < (run fs g).newEntries.length →
       ∃ n, n ∈ sourceImages fs.files ∧ lastIdx g (imgKey n) = none ∧
         (run fs g).newEntries.getD j default =
           { default_entry n (initMaxId g + (j : Int) + 1) with
               thumbnail := relThumb n, image := relImage n }) ∧
    (∀ n ∈ sourceImages fs.files, lastIdx g (imgKey n) = none →
       okSrc fs n = true →
       ∃ j, j < (run fs g).newEntries.length ∧
         (run fs g).newEntries.getD j default =
           { default_entry n (initMaxId g + (j : Int) + 1) with
               thumbnail := relThumb n, image := relImage n }) ∧
    ((g.map Entry.id).Nodup → ((run fs g).gallery.map Entry.id).Nodup) := by
  have hInv := inv1_fold fs g (sourceImages fs.files) [] (initState g) (inv1_init g)
  rw [List.nil_append] at hInv
  obtain ⟨hA, hM, hS⟩ := hInv
  have hlen := hA.1
  refine ⟨?_, ?_, ?_, ?_, ?_⟩
  · rw [run_gallery, run_newEntries, List.length_append, hlen]
  · rw [run_gallery, run_newEntries, hlen, List.drop_left]
  · rw [run_newEntries]
    exact hS
  · intro n hn hnone hok
    rw [run_newEntries]
    exact appends_fold fs g (sourceImages fs.files) [] (initState g) (inv1_init g)
      n hn hnone hok
  · intro hnd
    rw [run_gallery, List.map_append, List.nodup_append]
    have hids := agreeAll_map_id g _ hA
    have hmap : (runSources fs (initState g) (sourceImages fs.files)).newEntries.map
          Entry.id =
        (List.range (runSources fs (initState g)
          (sourceImages fs.files)).newEntries.length).map
          (fun j : Nat => initMaxId g + (j : Int) + 1) := by
      apply List.ext_getElem (by simp)
      intro j h1 h2
      rw [List.getElem_map, List.getElem_map, List.getElem_range]
      have hj : j < (runSources fs (initState g)
          (sourceImages fs.files)).newEntries.length := by simpa using h1
      obtain ⟨n, -, -, hE⟩ := hS j hj
      rw [← List.getD_eq_getElem _ default hj, hE]
      rfl
    refine ⟨?_, ?_, ?_⟩
    · rw [← hids]; exact hnd
    · rw [hmap]
      exact (List.nodup_range _).map (fun a b hab => by omega)
    · intro x hx1 hx2
      rw [← hids] at hx1
      rw [List.mem_map] at hx1
      obtain ⟨e, he, rfl⟩ := hx1
      have hle : e.id ≤ initMaxId g := id_le_initMaxId g e he
      rw [hmap, List.mem_map] at hx2
      obtain ⟨j, -, hj⟩ := hx2
      omega

/-- Counterexample to the universal direction of Claim C5 as frozen: the
corrupt, thumbnail-less `bad.jpg` is a source image with no matching catalog
entry, yet the run appends no entry for it (the resulting catalog and
new-entry list are empty). -/
theorem C5_counterexample :
    "bad.jpg" ∈ sourceImages ["bad.jpg"] ∧
    lastIdx [] (imgKey "bad.jpg") = none ∧
    okSrc ⟨["bad.jpg"], fun _ => false, fun _ => false⟩ "bad.jpg" = false ∧
    (run ⟨["bad.jpg"], fun _ => false, fun _ => false⟩ []).gallery = [] ∧
    (run ⟨["bad.jpg"], fun _ => false, fun _ => false⟩ []).newEntries = [] :=
  ⟨by decide, rfl, rfl, by decide, by decide⟩

/-- Witness for `C5_new_entry_ids`: a directory with two new images over a
one-entry catalog whose id is `5` appends entries with fresh ids, and the
unmatched decodable `b.jpg` in particular gets an appended entry. -/
theorem C5_new_entry_ids_witness :
    ((run ⟨["b.jpg", "c.jpg"], fun _ => false, fun _ => true⟩ [{ id := 5, title := "a", description := "d", category := "c", thumbnail := "./images/a-thumb.jpg", image := "./images/a.jpg", location := "l", date := "2000-01-01", camera := "cam", tags := ["None"] }]).gallery.map Entry.id).Nodup ∧
    (∃ n, n ∈ sourceImages ["b.jpg", "c.jpg"] ∧
       lastIdx [{ id := 5, title := "a", description := "d", category := "c", thumbnail := "./images/a-thumb.jpg", image := "./images/a.jpg", location := "l", date := "2000-01-01", camera := "cam", tags := ["None"] }] (imgKey n) = none ∧
       (run ⟨["b.jpg", "c.jpg"], fun _ => false, fun _ => true⟩ [{ id := 5, title := "a", description := "d", category := "c", thumbnail := "./images/a-thumb.jpg", image := "./images/a.jpg", location := "l", date := "2000-01-01", camera := "cam", tags := ["None"] }]).newEntries.getD 0 default =
         { default_entry n (initMaxId [{ id := 5, title := "a", description := "d", category := "c", thumbnail := "./images/a-thumb.jpg", image := "./images/a.jpg", location := "l", date := "2000-01-01", camera := "cam", tags := ["None"] }] + ((0 : Nat) : Int) + 1) with thumbnail := relThumb n, image := relImage n }) ∧
    (∃ j, j < (run ⟨["b.jpg", "c.jpg"], fun _ => false, fun _ => true⟩ [{ id := 5, title := "a", description := "d", category := "c", thumbnail := "./images/a-thumb.jpg", image := "./images/a.jpg", location := "l", date := "2000-01-01", camera := "cam", tags := ["None"] }]).newEntries.length ∧
       (run ⟨["b.jpg", "c.jpg"], fun _ => false, fun _ => true⟩ [{ id := 5, title := "a", description := "d", category := "c", thumbnail := "./images/a-thumb.jpg", image := "./images/a.jpg", location := "l", date := "2000-01-01", camera := "cam", tags := ["None"] }]).newEntries.getD j default =
         { default_entry "b.jpg" (initMaxId [{ id := 5, title := "a", description := "d", category := "c", thumbnail := "./images/a-thumb.jpg", image := "./images/a.jpg", location := "l", date := "2000-01-01", camera := "cam", tags := ["None"] }] + (j : Int) + 1) with thumbnail := relThumb "b.jpg", image := relImage "b.jpg" }) :=
  ⟨(C5_new_entry_ids ⟨["b.jpg", "c.jpg"], fun _ => false, fun _ => true⟩ [{ id := 5, title := "a", description := "d", category := "c", thumbnail := "./images/a-thumb.jpg", image := "./images/a.jpg", location := "l", date := "2000-01-01", camera := "cam", tags := ["None"] }]).2.2.2.2 (by decide),
   (C5_new_entry_ids ⟨["b.jpg", "c.jpg"], fun _ => false, fun _ => true⟩ [{ id := 5, title := "a", description := "d", category := "c", thumbnail := "./images/a-thumb.jpg", image := "./images/a.jpg", location := "l", date := "2000-01-01", camera := "cam", tags := ["None"] }]).2.2.1 0 (by decide),
   (C5_new_entry_ids ⟨["b.jpg", "c.jpg"], fun _ => false, fun _ => true⟩ [{ id := 5, title := "a", description := "d", category := "c", thumbnail := "./images/a-thumb.jpg", image := "./images/a.jpg", location := "l", date := "2000-01-01", camera := "cam", tags := ["None"] }]).2.2.2.1 "b.jpg" (by decide) (by decide) (by decide)⟩

/-! ### Atomic persistence -/

theorem rfind_append (a b : List Char) (c : Char) :
    rfind (a ++ b) c =
      match rfind b c with
      | some j => some (a.length + j)
      | none => rfind a c := by
  induction a with
  | nil =>
    cases hb : rfind b c <;> simp [hb, rfind]
  | cons x a ih =>
    rw [List.cons_append, rfind, ih]
    cases hb : rfind b c with
    | some j =>
      simp only [Option.some.injEq, List.length_cons]
      omega
    | none =>
      rw [rfind]

theorem rfind_eq_none (l : List Char) (c : Char) (h : l.contains c = false) :
    rfind l c = none := by
  induction l with
  | nil => rfl
  | cons x l ih =>
    rw [List.contains_cons] at h
    rw [Bool.or_eq_false_iff] at h
    rw [rfind, ih h.2,
      if_neg (by
        rw [beq_eq_false_iff_ne.mpr (Ne.symm (beq_eq_false_iff_ne.mp h.1))]
        exact Bool.false_ne_true)]

theorem mkstemp_data (salt : String) :
    (mkstempPath "images" salt).data = ("images/gallery-").data ++ salt.data := by
  unfold mkstempPath
  rw [String.data_append]
  rfl

theorem dirOf_mkstemp (salt : String) (hs : salt.data.contains '/' = false) :
    dirOf (mkstempPath (dirOf GALLERY_PATH) salt) = dirOf GALLERY_PATH := by
  have hgal : dirOf GALLERY_PATH = "images" := by decide
  rw [hgal]
  unfold dirOf
  rw [mkstemp_data, rfind_append, rfind_eq_none salt.data '/' hs,
    show rfind ("images/gallery-").data '/' = some 6 by decide]
  show (⟨List.take 6 (("images/gallery-").data ++ salt.data)⟩ : String) = "images"
  rw [List.take_append_of_le_length (by decide)]
  decide

theorem mkstemp_ne_gallery (salt : String) :
    mkstempPath (dirOf GALLERY_PATH) salt ≠ GALLERY_PATH := by
  have hgal : dirOf GALLERY_PATH = "images" := by decide
  rw [hgal]
  intro h
  have hd := congrArg String.data h
  rw [mkstemp_data] at hd
  have h14 : (("images/gallery-").data ++ salt.data).getD 14 ' ' =
      GALLERY_PATH.data.getD 14 ' ' := by
    rw [hd]
  rw [getD_append, if_pos (by decide)] at h14
  exact absurd h14 (by decide)

/-- Claim C8: every persist of the catalog is either nothing (no change) or
a write of the full serialized text to a fresh temp file in `gallery.json`'s
own directory followed by one atomic rename over it; under the prefix-crash
semantics of the action trace, the catalog path holds the complete old
content or the complete new content at every intermediate moment. -/
theorem C8_atomic_catalog_write (fs : FS) (g : List Entry) (pretty salt : String)
    (d0 : String → Option String)
    (hs : salt.data.contains '/' = false) :
    dirOf (mkstempPath (dirOf GALLERY_PATH) salt) = dirOf GALLERY_PATH ∧
    mkstempPath (dirOf GALLERY_PATH) salt ≠ GALLERY_PATH ∧
    (persistTrace fs g pretty salt = [] ∨
     persistTrace fs g pretty salt =
       [FsAction.writeFile (mkstempPath (dirOf GALLERY_PATH) salt) pretty,
        FsAction.replace (mkstempPath (dirOf GALLERY_PATH) salt) GALLERY_PATH]) ∧
    ∀ k : Nat,
      runActions d0 ((persistTrace fs g pretty salt).take k) GALLERY_PATH =
          d0 GALLERY_PATH ∨
      runActions d0 ((persistTrace fs g pretty salt).take k) GALLERY_PATH =
          some pretty := by
  have hne := mkstemp_ne_gallery salt
  refine ⟨dirOf_mkstemp salt hs, hne, ?_, ?_⟩
  · unfold persistTrace
    cases hc : (run fs g).changed with
    | false => exact Or.inl (by rw [if_neg (by exact Bool.false_ne_true)])
    | true => exact Or.inr (by rw [if_pos rfl]; rfl)
  · intro k
    unfold persistTrace
    cases hc : (run fs g).changed with
    | false =>
      rw [if_neg (by exact Bool.false_ne_true)]
      exact Or.inl (by rw [List.take_nil]; rfl)
    | true =>
      rw [if_pos rfl,
        show atomic_write GALLERY_PATH pretty salt =
          [FsAction.writeFile (mkstempPath (dirOf GALLERY_PATH) salt) pretty,
           FsAction.replace (mkstempPath (dirOf GALLERY_PATH) salt) GALLERY_PATH]
          from rfl]
      match k with
      | 0 => exact Or.inl rfl
      | 1 =>
        refine Or.inl ?_
        show (if (GALLERY_PATH == mkstempPath (dirOf GALLERY_PATH) salt) = true then
            some pretty else d0 GALLERY_PATH) = d0 GALLERY_PATH
        rw [if_neg (by
          rw [beq_eq_false_iff_ne.mpr (Ne.symm hne)]
          exact Bool.false_ne_true)]
      | (k + 2) =>
        refine Or.inr ?_
        rw [show ([FsAction.writeFile (mkstempPath (dirOf GALLERY_PATH) salt) pretty,
            FsAction.replace (mkstempPath (dirOf GALLERY_PATH) salt)
              GALLERY_PATH]).take (k + 2) =
          [FsAction.writeFile (mkstempPath (dirOf GALLERY_PATH) salt) pretty,
           FsAction.replace (mkstempPath (dirOf GALLERY_PATH) salt) GALLERY_PATH] by
            simp]
        show (if (GALLERY_PATH == GALLERY_PATH) = true then
            (if (mkstempPath (dirOf GALLERY_PATH) salt ==
                mkstempPath (dirOf GALLERY_PATH) salt) = true then some pretty
             else d0 (mkstempPath (dirOf GALLERY_PATH) salt))
          else if (GALLERY_PATH == mkstempPath (dirOf GALLERY_PATH) salt) = true then
            none
          else (if (GALLERY_PATH == mkstempPath (dirOf GALLERY_PATH) salt) = true then
            some pretty else d0 GALLERY_PATH)) = some pretty
        rw [if_pos (beq_iff_eq.mpr rfl), if_pos (beq_iff_eq.mpr rfl)]

/-- Witness for `C8_atomic_catalog_write` at a slash-free salt and an empty
starting disk. -/
theorem C8_atomic_catalog_write_witness :
    mkstempPath (dirOf GALLERY_PATH) "abc123" ≠ GALLERY_PATH ∧
    dirOf (mkstempPath (dirOf GALLERY_PATH) "abc123") = dirOf GALLERY_PATH ∧
    (runActions (fun _ => none)
        ((persistTrace ⟨["a.jpg"], fun _ => false, fun _ => true⟩ [] "[]" "abc123").take 1)
        GALLERY_PATH = (fun _ => none : String → Option String) GALLERY_PATH ∨
     runActions (fun _ => none)
        ((persistTrace ⟨["a.jpg"], fun _ => false, fun _ => true⟩ [] "[]" "abc123").take 1)
        GALLERY_PATH = some "[]") := by
  have h := C8_atomic_catalog_write ⟨["a.jpg"], fun _ => false, fun _ => true⟩ []
    "[]" "abc123" (fun _ => none) (by decide)
  exact ⟨h.2.1, h.1, h.2.2.2 1⟩

/-! ### Full invariant for idempotence -/

theorem invFull_init (fs : FS) (g : List Entry) : InvFull fs g [] (initState g) := by
  refine ⟨inv1_init g, ?_, ?_, ?_, ?_, ?_⟩
  · intro n hn; simp at hn
  · intro n hn; simp at hn
  · intro i _; rfl
  · intro _; exact ⟨rfl, rfl⟩
  · intro h; exact absurd h Bool.false_ne_true

theorem newEntries_keys (g : List Entry) (done : List String) (st : RunState)
    (h1 : Inv1 g done st) :
    ∀ e ∈ st.newEntries, ∃ n', n' ∈ done ∧ keyOf e = imgKey n' := by
  intro e he
  obtain ⟨j, hj, hje⟩ := List.mem_iff_getElem.mp he
  obtain ⟨n', hn', -, hE⟩ := h1.2.2 j hj
  refine ⟨n', hn', ?_⟩
  have hee : e = st.newEntries.getD j default := by
    rw [List.getD_eq_getElem _ _ hj, hje]
  rw [hee, hE]
  show normalize_key (relImage n') = imgKey n'
  exact normalize_key_relImage n'

theorem lastIdx_newEntries_none (g : List Entry) (done : List String) (st : RunState)
    (h1 : Inv1 g done st) (n : String) (hn : n ∉ done) :
    lastIdx st.newEntries (imgKey n) = none := by
  rw [lastIdx_none_iff]
  intro e he hk
  obtain ⟨n', hn', hk'⟩ := newEntries_keys g done st h1 e he
  rw [hk'] at hk
  exact hn (imgKey_inj hk ▸ hn')

theorem step_thumb_exists (fs : FS) (st : RunState) (n : String)
    (hok : okSrc fs n = true) :
    existsNow fs (processSource fs st n).created (thumbPath n) = true := by
  cases h1 : existsNow fs st.created (thumbPath n) with
  | true =>
    obtain ⟨ex, hcr⟩ := created_mono fs st n
    rw [hcr]
    exact existsNow_mono fs st.created ex (thumbPath n) h1
  | false =>
    have hpe : fs.pathExists (thumbPath n) = false := by
      unfold existsNow at h1
      exact (Bool.or_eq_false_iff.mp h1).1
    have hdec : fs.decodable n = true := by
      unfold okSrc at hok
      rcases Bool.or_eq_true_iff.mp hok with h' | h'
      · rw [hpe] at h'; exact absurd h' (by decide)
      · exact h'
    rw [processSource_of_decodable fs st n h1 hdec, processEntry_created]
    show existsNow fs (st.created ++ [thumbPath n]) (thumbPath n) = true
    unfold existsNow
    apply Bool.or_eq_true_iff.mpr
    refine Or.inr ?_
    rw [List.elem_iff]
    exact List.mem_append.mpr (Or.inr (List.mem_singleton.mpr rfl))

theorem step_settled_mono (fs : FS) (g : List Entry) (done : List String)
    (st : RunState) (n n' : String) (_h1 : Inv1 g done st)
    (hne' : n' ≠ n)
    (hs : Settled fs st.created (st.gallery ++ st.newEntries) n') :
    Settled fs (processSource fs st n).created
      ((processSource fs st n).gallery ++ (processSource fs st n).newEntries) n' := by
  obtain ⟨ex, hcr⟩ := created_mono fs st n
  obtain ⟨i, hLi, hprop⟩ := hs
  have hprop' :
      (((st.gallery ++ st.newEntries).getD i default).thumbnail = relThumb n' ∨
       (((st.gallery ++ st.newEntries).getD i default).thumbnail ≠ "" ∧
        existsNow fs (processSource fs st n).created
          (normalize_key
            ((st.gallery ++ st.newEntries).getD i default).thumbnail) = true)) := by
    rcases hprop with h | ⟨ha, hb⟩
    · exact Or.inl h
    · exact Or.inr ⟨ha, by rw [hcr]; exact existsNow_mono _ _ _ _ hb⟩
  rcases step_cases fs st n with ⟨c, hst⟩ | ⟨c, i₀, hL0, hth0, hst⟩ | ⟨c, hL0, hst⟩
  · have hg : (processSource fs st n).gallery = st.gallery := by rw [hst]
    have hne2 : (processSource fs st n).newEntries = st.newEntries := by rw [hst]
    rw [hg, hne2]
    exact ⟨i, hLi, hprop'⟩
  · have hi0len : i₀ < st.gallery.length := lastIdx_lt _ _ _ hL0
    have hkey0 : keyOf (st.gallery.getD i₀ default) = imgKey n :=
      lastIdx_keyOf _ _ _ hL0
    have hg : (processSource fs st n).gallery = st.gallery.set i₀
        { st.gallery.getD i₀ default with thumbnail := relThumb n } := by rw [hst]
    have hne2 : (processSource fs st n).newEntries = st.newEntries := by rw [hst]
    rw [hg, hne2, ← List.set_append_left _ _ hi0len]
    have hii : i ≠ i₀ := by
      intro hcontra
      have hki : keyOf ((st.gallery ++ st.newEntries).getD i default) = imgKey n' :=
        lastIdx_keyOf _ _ _ hLi
      rw [hcontra, getD_append, if_pos hi0len, hkey0] at hki
      exact hne' (imgKey_inj hki).symm
    refine ⟨i, ?_, ?_⟩
    · rw [lastIdx_set]
      · exact hLi
      · rw [getD_append, if_pos hi0len]
        rfl
    · rw [getD_set, if_neg (by intro hcon; exact hii hcon.1.symm)]
      exact hprop'
  · have hg : (processSource fs st n).gallery = st.gallery := by rw [hst]
    have hne2 : (processSource fs st n).newEntries = st.newEntries ++
        [{ default_entry n (st.maxId + 1) with
             thumbnail := relThumb n, image := relImage n }] := by rw [hst]
    rw [hg, hne2, ← List.append_assoc]
    have hxnone : lastIdx [{ default_entry n (st.maxId + 1) with
        thumbnail := relThumb n, image := relImage n }] (imgKey n') = none := by
      rw [lastIdx_none_iff]
      intro e he hk
      rw [List.mem_singleton] at he
      subst he
      rw [show keyOf ({ default_entry n (st.maxId + 1) with
          thumbnail := relThumb n, image := relImage n } : Entry) = imgKey n from
        normalize_key_relImage n] at hk
      exact hne' (imgKey_inj hk).symm
    refine ⟨i, ?_, ?_⟩
    · rw [lastIdx_append, hxnone]
      exact hLi
    · have hilen : i < (st.gallery ++ st.newEntries).length := lastIdx_lt _ _ _ hLi
      rw [getD_append, if_pos hilen]
      exact hprop'

theorem processEntry_settled (fs : FS) (st : RunState) (n : String)
    (hNEnone : lastIdx st.newEntries (imgKey n) = none) :
    Settled fs (processEntry fs st n).created
      ((processEntry fs st n).gallery ++ (processEntry fs st n).newEntries) n := by
  cases hL : lastIdx st.gallery (imgKey n) with
  | some i =>
    rw [processEntry_of_some fs st n i hL]
    have hilen := lastIdx_lt _ _ _ hL
    have hGlen : i < (st.gallery ++ st.newEntries).length := by
      rw [List.length_append]
      omega
    have hGL : lastIdx (st.gallery ++ st.newEntries) (imgKey n) = some i := by
      rw [lastIdx_append, hNEnone]
      exact hL
    by_cases he : (st.gallery.getD i default).thumbnail = ""
    · rw [processFound_of_empty fs st n i he]
      refine ⟨i, ?_, Or.inl ?_⟩
      · show lastIdx ((st.gallery.set i
          { st.gallery.getD i default with thumbnail := relThumb n }) ++
            st.newEntries) (imgKey n) = some i
        rw [← List.set_append_left _ _ hilen, lastIdx_set]
        · exact hGL
        · rw [getD_append, if_pos hilen]
          rfl
      · show ((((st.gallery.set i
          { st.gallery.getD i default with thumbnail := relThumb n }) ++
            st.newEntries)).getD i default).thumbnail = relThumb n
        rw [← List.set_append_left _ _ hilen, getD_set, if_pos ⟨rfl, hGlen⟩]
    · by_cases hrel : (st.gallery.getD i default).thumbnail = relThumb n
      · rw [processFound_of_canonical fs st n i hrel]
        refine ⟨i, hGL, Or.inl ?_⟩
        rw [getD_append, if_pos hilen]
        exact hrel
      · cases hex : existsNow fs st.created
            (normalize_key (st.gallery.getD i default).thumbnail) with
        | true =>
          rw [processFound_of_kept fs st n i he hrel hex]
          refine ⟨i, hGL, Or.inr ⟨?_, ?_⟩⟩
          · rw [getD_append, if_pos hilen]
            exact he
          · rw [getD_append, if_pos hilen]
            exact hex
        | false =>
          rw [processFound_of_stale fs st n i he hrel hex]
          refine ⟨i, ?_, Or.inl ?_⟩
          · show lastIdx ((st.gallery.set i
              { st.gallery.getD i default with thumbnail := relThumb n }) ++
                st.newEntries) (imgKey n) = some i
            rw [← List.set_append_left _ _ hilen, lastIdx_set]
            · exact hGL
            · rw [getD_append, if_pos hilen]
              rfl
          · show ((((st.gallery.set i
              { st.gallery.getD i default with thumbnail := relThumb n }) ++
                st.newEntries)).getD i default).thumbnail = relThumb n
            rw [← List.set_append_left _ _ hilen, getD_set, if_pos ⟨rfl, hGlen⟩]
  | none =>
    rw [processEntry_of_none fs st n hL]
    have hx : lastIdx [{ default_entry n (st.maxId + 1) with
        thumbnail := relThumb n, image := relImage n }] (imgKey n) = some 0 := by
      show (if keyOf ({ default_entry n (st.maxId + 1) with
          thumbnail := relThumb n, image := relImage n } : Entry) == imgKey n then
          some 0 else none) = some 0
      rw [if_pos (show (keyOf ({ default_entry n (st.maxId + 1) with
          thumbnail := relThumb n, image := relImage n } : Entry) ==
            imgKey n) = true from beq_iff_eq.mpr (normalize_key_relImage n))]
    refine ⟨(st.gallery ++ st.newEntries).length, ?_, Or.inl ?_⟩
    · show lastIdx (st.gallery ++ (st.newEntries ++
        [{ default_entry n (st.maxId + 1) with
             thumbnail := relThumb n, image := relImage n }])) (imgKey n) =
        some (st.gallery ++ st.newEntries).length
      rw [← List.append_assoc, lastIdx_append, hx]
      rfl
    · show (((st.gallery ++ (st.newEntries ++
        [{ default_entry n (st.maxId + 1) with
             thumbnail := relThumb n, image := relImage n }]))).getD
          (st.gallery ++ st.newEntries).length default).thumbnail = relThumb n
      rw [← List.append_assoc, getD_append, if_neg (lt_irrefl _), Nat.sub_self,
        List.getD_cons_zero]

theorem step_settled (fs : FS) (g : List Entry) (done : List String)
    (st : RunState) (n : String) (h1 : Inv1 g done st) (hn : n ∉ done)
    (hok : okSrc fs n = true) :
    Settled fs (processSource fs st n).created
      ((processSource fs st n).gallery ++ (processSource fs st n).newEntries) n := by
  have hNEnone := lastIdx_newEntries_none g done st h1 n hn
  cases h1' : existsNow fs st.created (thumbPath n) with
  | true =>
    rw [processSource_of_exists fs st n h1']
    exact processEntry_settled fs st n hNEnone
  | false =>
    have hpe : fs.pathExists (thumbPath n) = false := by
      unfold existsNow at h1'
      exact (Bool.or_eq_false_iff.mp h1').1
    have hdec : fs.decodable n = true := by
      unfold okSrc at hok
      rcases Bool.or_eq_true_iff.mp hok with h' | h'
      · rw [hpe] at h'; exact absurd h' (by decide)
      · exact h'
    rw [processSource_of_decodable fs st n h1' hdec]
    exact processEntry_settled fs
      { st with created := st.created ++ [thumbPath n] } n hNEnone

theorem invFull_step (fs : FS) (g : List Entry) (done : List String)
    (st : RunState) (n : String) (h : InvFull fs g done st) (hn : n ∉ done) :
    InvFull fs g (done ++ [n]) (processSource fs st n) := by
  obtain ⟨h1, hC, hD, hE, hF0, hF1⟩ := h
  obtain ⟨ex, hcr⟩ := created_mono fs st n
  refine ⟨inv1_step fs g done st n h1, ?_, ?_, ?_, ?_, ?_⟩
  · intro n' hn' hok'
    rcases List.mem_append.mp hn' with hd | hs
    · rw [hcr]
      exact existsNow_mono _ _ _ _ (hC n' hd hok')
    · rw [List.mem_singleton] at hs
      rw [hs] at hok' ⊢
      exact step_thumb_exists fs st n hok'
  · intro n' hn' hok'
    rcases List.mem_append.mp hn' with hd | hs
    · refine step_settled_mono fs g done st n n' h1 ?_ (hD n' hd hok')
      intro hcontra
      subst hcontra
      exact hn hd
    · rw [List.mem_singleton] at hs
      rw [hs] at hok' ⊢
      exact step_settled fs g done st n h1 hn hok'
  · intro i hkeys
    have hE' := hE i (fun n'' h'' => hkeys n'' (List.mem_append.mpr (Or.inl h'')))
    rcases step_cases fs st n with ⟨c, hst⟩ | ⟨c, i₀, hL0, hth0, hst⟩ | ⟨c, hL0, hst⟩
    · have hg : (processSource fs st n).gallery = st.gallery := by rw [hst]
      rw [hg]
      exact hE'
    · have hg : (processSource fs st n).gallery = st.gallery.set i₀
          { st.gallery.getD i₀ default with thumbnail := relThumb n } := by rw [hst]
      rw [hg, getD_set]
      have hkey0 : keyOf (st.gallery.getD i₀ default) = imgKey n :=
        lastIdx_keyOf _ _ _ hL0
      by_cases hii : i₀ = i ∧ i₀ < st.gallery.length
      · exfalso
        have hkn := hkeys n (List.mem_append.mpr (Or.inr (List.mem_singleton.mpr rfl)))
        have hkey_eq : keyOf (g.getD i default) = keyOf (st.gallery.getD i default) :=
          agree_keyOf ((h1.1).2 i)
        apply hkn
        rw [hkey_eq, ← hii.1, hkey0]
      · rw [if_neg hii]
        exact hE'
    · have hg : (processSource fs st n).gallery = st.gallery := by rw [hst]
      rw [hg]
      exact hE'
  · intro hch
    rcases step_cases fs st n with ⟨c, hst⟩ | ⟨c, i₀, hL0, hth0, hst⟩ | ⟨c, hL0, hst⟩
    · have hcc : (processSource fs st n).changed = st.changed := by rw [hst]
      have hg : (processSource fs st n).gallery = st.gallery := by rw [hst]
      have hnn : (processSource fs st n).newEntries = st.newEntries := by rw [hst]
      rw [hcc] at hch
      rw [hg, hnn]
      exact hF0 hch
    · have hcc : (processSource fs st n).changed = true := by rw [hst]
      rw [hcc] at hch
      exact absurd hch (by decide)
    · have hcc : (processSource fs st n).changed = true := by rw [hst]
      rw [hcc] at hch
      exact absurd hch (by decide)
  · intro hch
    rcases step_cases fs st n with ⟨c, hst⟩ | ⟨c, i₀, hL0, hth0, hst⟩ | ⟨c, hL0, hst⟩
    · have hcc : (processSource fs st n).changed = st.changed := by rw [hst]
      have hg : (processSource fs st n).gallery = st.gallery := by rw [hst]
      have hnn : (processSource fs st n).newEntries = st.newEntries := by rw [hst]
      rw [hcc] at hch
      rw [hg, hnn]
      exact hF1 hch
    · have hg : (processSource fs st n).gallery = st.gallery.set i₀
          { st.gallery.getD i₀ default with thumbnail := relThumb n } := by rw [hst]
      rintro ⟨hgg, -⟩
      rw [hg] at hgg
      have hkey0 : keyOf (st.gallery.getD i₀ default) = imgKey n :=
        lastIdx_keyOf _ _ _ hL0
      have hkeyg : keyOf (g.getD i₀ default) = imgKey n := by
        rw [agree_keyOf ((h1.1).2 i₀), hkey0]
      have hEi : st.gallery.getD i₀ default = g.getD i₀ default := by
        apply hE i₀
        intro n'' hmem hkk
        rw [hkeyg] at hkk
        exact hn (imgKey_inj hkk ▸ hmem)
      have hlen0 : i₀ < st.gallery.length := lastIdx_lt _ _ _ hL0
      have hth := congrArg (fun l => (l.getD i₀ default).thumbnail) hgg
      simp only at hth
      rw [getD_set, if_pos ⟨rfl, hlen0⟩] at hth
      apply hth0
      rw [hEi]
      exact hth.symm
    · have hnn : (processSource fs st n).newEntries = st.newEntries ++
          [{ default_entry n (st.maxId + 1) with
               thumbnail := relThumb n, image := relImage n }] := by rw [hst]
      rintro ⟨-, hne0⟩
      rw [hnn] at hne0
      simp at hne0

theorem invFull_fold (fs : FS) (g : List Entry) (l : List String) :
    ∀ (done : List String) (st : RunState), InvFull fs g done st →
      (∀ n ∈ l, n ∉ done) → l.Nodup →
      InvFull fs g (done ++ l) (runSources fs st l) := by
  induction l with
  | nil =>
    intro done st h _ _
    rw [List.append_nil]
    exact h
  | cons n l ih =>
    intro done st h hdisj hnd
    rw [runSources_cons, show done ++ n :: l = (done ++ [n]) ++ l by simp]
    apply ih (done ++ [n]) (processSource fs st n)
      (invFull_step fs g done st n h (hdisj n (List.mem_cons_self n l)))
    · intro n' hn' hmem
      rcases List.mem_append.mp hmem with hd | hs
      · exact hdisj n' (List.mem_cons_of_mem n hn') hd
      · rw [List.mem_singleton] at hs
        subst hs
        exact (List.nodup_cons.mp hnd).1 hn'
    · exact (List.nodup_cons.mp hnd).2

theorem invPersist_init (g : List Entry) : InvPersist g (initState g) := by
  refine ⟨fun i => Or.inl rfl, fun _ => ⟨rfl, rfl⟩, fun h => absurd h Bool.false_ne_true⟩

theorem invPersist_step (fs : FS) (g : List Entry) (st : RunState) (n : String)
    (h : InvPersist g st) : InvPersist g (processSource fs st n) := by
  obtain ⟨hJ, hF0, hF1⟩ := h
  rcases step_cases fs st n with ⟨c, hst⟩ | ⟨c, i₀, hL0, hth0, hst⟩ | ⟨c, hL0, hst⟩
  · have hg : (processSource fs st n).gallery = st.gallery := by rw [hst]
    have hnn : (processSource fs st n).newEntries = st.newEntries := by rw [hst]
    have hcc : (processSource fs st n).changed = st.changed := by rw [hst]
    refine ⟨?_, ?_, ?_⟩
    · rw [hg]
      exact hJ
    · rw [hcc, hg, hnn]
      exact hF0
    · rw [hcc, hg, hnn]
      exact hF1
  · have hg : (processSource fs st n).gallery = st.gallery.set i₀
        { st.gallery.getD i₀ default with thumbnail := relThumb n } := by rw [hst]
    have hcc : (processSource fs st n).changed = true := by rw [hst]
    have hkey0 : keyOf (st.gallery.getD i₀ default) = imgKey n :=
      lastIdx_keyOf _ _ _ hL0
    have hi0 : i₀ < st.gallery.length := lastIdx_lt _ _ _ hL0
    refine ⟨?_, ?_, ?_⟩
    · intro i
      rw [hg, getD_set]
      by_cases hii : i₀ = i ∧ i₀ < st.gallery.length
      · rw [if_pos hii]
        refine Or.inr ?_
        intro n' hkn'
        have hnn' : imgKey n = imgKey n' :=
          hkey0.symm.trans
            (show keyOf (st.gallery.getD i₀ default) = imgKey n' from hkn')
        rw [← imgKey_inj hnn']
      · rw [if_neg hii]
        exact hJ i
    · rw [hcc]
      intro hfalse
      exact absurd hfalse (by decide)
    · rw [hcc, hg]
      intro _
      rintro ⟨hgg, -⟩
      rcases hJ i₀ with hsame | hthumb
      · have hd := congrArg (fun l => (l.getD i₀ default).thumbnail) hgg
        simp only at hd
        rw [getD_set, if_pos ⟨rfl, hi0⟩] at hd
        apply hth0
        rw [hsame]
        exact hd.symm
      · exact hth0 (hthumb n hkey0)
  · have hg : (processSource fs st n).gallery = st.gallery := by rw [hst]
    have hnn : (processSource fs st n).newEntries = st.newEntries ++
        [{ default_entry n (st.maxId + 1) with
             thumbnail := relThumb n, image := relImage n }] := by rw [hst]
    have hcc : (processSource fs st n).changed = true := by rw [hst]
    refine ⟨?_, ?_, ?_⟩
    · rw [hg]
      exact hJ
    · rw [hcc]
      intro hfalse
      exact absurd hfalse (by decide)
    · rw [hnn]
      rintro - ⟨-, hne0⟩
      simp at hne0

theorem invPersist_fold (fs : FS) (g : List Entry) (l : List String) :
    ∀ st : RunState, InvPersist g st → InvPersist g (runSources fs st l) := by
  induction l with
  | nil => exact fun st h => h
  | cons n l ih =>
    intro st h
    rw [runSources_cons]
    exact ih _ (invPersist_step fs g st n h)

theorem second_step_id (fs : FS) (cr1 : List String) (files2 : List String)
    (G : List Entry) (n : String)
    (hth : existsNow fs cr1 (thumbPath n) = true)
    (hs : Settled fs cr1 G n) :
    processSource (secondFS fs files2 cr1) (initState G) n = initState G := by
  have h1 : existsNow (secondFS fs files2 cr1) (initState G).created
      (thumbPath n) = true := by
    show (existsNow fs cr1 (thumbPath n) || List.contains [] (thumbPath n)) = true
    rw [hth]
    rfl
  rw [processSource_of_exists _ _ n h1]
  obtain ⟨i, hLi, hprop⟩ := hs
  rw [processEntry_of_some _ (initState G) n i (by exact hLi)]
  rcases hprop with hrel | ⟨hnemp, hex⟩
  · exact processFound_of_canonical _ (initState G) n i (by exact hrel)
  · by_cases hrel : (G.getD i default).thumbnail = relThumb n
    · exact processFound_of_canonical _ (initState G) n i (by exact hrel)
    · refine processFound_of_kept _ (initState G) n i (by exact hnemp)
        (by exact hrel) ?_
      show (existsNow fs cr1 (normalize_key (G.getD i default).thumbnail) ||
        List.contains [] (normalize_key (G.getD i default).thumbnail)) = true
      rw [hex]
      rfl

theorem second_fold_id (fs : FS) (cr1 : List String) (files2 : List String)
    (G : List Entry) (l : List String) :
    (∀ n ∈ l, existsNow fs cr1 (thumbPath n) = true ∧ Settled fs cr1 G n) →
    runSources (secondFS fs files2 cr1) (initState G) l = initState G := by
  induction l with
  | nil => intro _; rfl
  | cons n l ih =>
    intro h
    rw [runSources_cons,
      second_step_id fs cr1 files2 G n (h n (List.mem_cons_self n l)).1
        (h n (List.mem_cons_self n l)).2]
    exact ih (fun n' hn' => h n' (List.mem_cons_of_mem n hn'))

/-- Claim C2 (amended): (1) provided every source image either already has
its derived thumbnail on disk or is decodable — i.e. no thumbnail creation
fails — a second run on the unchanged directory (same sources, thumbnails
written by the first run now present, e.g. also listed in the directory) is
a no-op: same catalog, `changed = false` so `gallery.json` is not
rewritten, and no thumbnail file is written; (2) unconditionally, for every
filesystem and every loaded catalog, the catalog file is persisted
(`changed = true`) exactly when the in-memory catalog differs from the
loaded one.  Without the no-failure proviso the original idempotence claim
is false, see `C2_counterexample`. -/
theorem C2_second_run_noop :
    (∀ (fs : FS) (g : List Entry) (files2 : List String),
       (sourceImages fs.files).Nodup →
       (∀ n ∈ sourceImages fs.files, okSrc fs n = true) →
       sourceImages files2 = sourceImages fs.files →
       ((run (secondFS fs files2 (run fs g).created) (run fs g).gallery).gallery =
           (run fs g).gallery ∧
        (run (secondFS fs files2 (run fs g).created) (run fs g).gallery).changed =
           false ∧
        (run (secondFS fs files2 (run fs g).created) (run fs g).gallery).created =
           [])) ∧
    (∀ (fs : FS) (g : List Entry),
       (run fs g).changed = false ↔ (run fs g).gallery = g) := by
  constructor
  · intro fs g files2 hnd hok h2
    have hInv := invFull_fold fs g (sourceImages fs.files) [] (initState g)
      (invFull_init fs g) (by intro n _ hc; simp at hc) hnd
    rw [List.nil_append] at hInv
    obtain ⟨h1, hC, hD, hE, hF0, hF1⟩ := hInv
    have hprops : ∀ n ∈ sourceImages fs.files,
        existsNow fs (run fs g).created (thumbPath n) = true ∧
        Settled fs (run fs g).created (run fs g).gallery n := by
      intro n hnmem
      constructor
      · rw [run_created]
        exact hC n hnmem (hok n hnmem)
      · rw [run_created, run_gallery]
        exact hD n hnmem (hok n hnmem)
    have hrs : runSources (secondFS fs files2 (run fs g).created)
        (initState (run fs g).gallery)
        (sourceImages (secondFS fs files2 (run fs g).created).files) =
        initState (run fs g).gallery := by
      show runSources (secondFS fs files2 (run fs g).created)
        (initState (run fs g).gallery) (sourceImages files2) =
        initState (run fs g).gallery
      rw [h2]
      exact second_fold_id fs (run fs g).created files2 (run fs g).gallery
        (sourceImages fs.files) hprops
    refine ⟨?_, ?_, ?_⟩
    · rw [run_gallery, hrs]
      show (run fs g).gallery ++ ([] : List Entry) = (run fs g).gallery
      rw [List.append_nil]
    · rw [run_changed, hrs]
      rfl
    · rw [run_created, hrs]
      rfl
  · intro fs g
    obtain ⟨hJ, hF0, hF1⟩ :=
      invPersist_fold fs g (sourceImages fs.files) (initState g) (invPersist_init g)
    have hlen := (agreeAll_fold fs g (sourceImages fs.files) (initState g)
      (agreeAll_refl g)).1
    constructor
    · intro hch
      rw [run_changed] at hch
      obtain ⟨hgal, hne⟩ := hF0 hch
      rw [run_gallery, hgal, hne, List.append_nil]
    · intro hgal
      rw [run_changed]
      by_contra hc
      have hch : (runSources fs (initState g) (sourceImages fs.files)).changed =
          true := by
        cases hcc : (runSources fs (initState g) (sourceImages fs.files)).changed with
        | false => exact absurd hcc hc
        | true => rfl
      apply hF1 hch
      rw [run_gallery] at hgal
      have hlen2 := congrArg List.length hgal
      rw [List.length_append] at hlen2
      have hne0 : (runSources fs (initState g)
          (sourceImages fs.files)).newEntries = [] := by
        apply List.length_eq_zero.mp
        omega
      constructor
      · rw [hne0, List.append_nil] at hgal
        exact hgal
      · exact hne0

/-- Claim C2 as frozen is false: with a corrupt `a.jpeg` and a decodable
`a.jpg` (same stem, so the same derived thumbnail `a-thumb.jpg`), the first
run fails on `a.jpeg` and then writes `a-thumb.jpg` on behalf of `a.jpg`;
on the second run over the unchanged directory `a.jpeg` finds the thumbnail
present, gains a brand-new catalog entry, and the catalog is rewritten. -/
theorem C2_counterexample :
    ((run (secondFS ⟨["a.jpeg", "a.jpg"], fun _ => false, fun n => n == "a.jpg"⟩
        ["a-thumb.jpg", "a.jpeg", "a.jpg"]
        (run ⟨["a.jpeg", "a.jpg"], fun _ => false, fun n => n == "a.jpg"⟩ []).created)
      (run ⟨["a.jpeg", "a.jpg"], fun _ => false, fun n => n == "a.jpg"⟩ []).gallery).changed
        = true) ∧
    ¬((run (secondFS ⟨["a.jpeg", "a.jpg"], fun _ => false, fun n => n == "a.jpg"⟩
        ["a-thumb.jpg", "a.jpeg", "a.jpg"]
        (run ⟨["a.jpeg", "a.jpg"], fun _ => false, fun n => n == "a.jpg"⟩ []).created)
      (run ⟨["a.jpeg", "a.jpg"], fun _ => false, fun n => n == "a.jpg"⟩ []).gallery).gallery
        = (run ⟨["a.jpeg", "a.jpg"], fun _ => false, fun n => n == "a.jpg"⟩ []).gallery) := by
  refine ⟨by decide, by decide⟩

/-- Witness for `C2_second_run_noop` on a directory with one decodable
image. -/
theorem C2_second_run_noop_witness :
    (run (secondFS ⟨["a.jpg"], fun _ => false, fun _ => true⟩ ["a-thumb.jpg", "a.jpg"]
        (run ⟨["a.jpg"], fun _ => false, fun _ => true⟩ []).created)
      (run ⟨["a.jpg"], fun _ => false, fun _ => true⟩ []).gallery).changed = false ∧
    ((run ⟨["a.jpg"], fun _ => false, fun _ => true⟩ []).changed = false ↔
      (run ⟨["a.jpg"], fun _ => false, fun _ => true⟩ []).gallery = []) :=
  ⟨(C2_second_run_noop.1 ⟨["a.jpg"], fun _ => false, fun _ => true⟩ []
      ["a-thumb.jpg", "a.jpg"] (by decide) (by decide) (by decide)).2.1,
   C2_second_run_noop.2 ⟨["a.jpg"], fun _ => false, fun _ => true⟩ []⟩

end Gallery
